import Mathlib

/-!
Verification development for the `cli-utils` repository
(`src/lib/command-utils.ts`, `src/lib/internal-utils.ts`).

The TypeScript sources are shallowly embedded: strings are modelled as
`List Char` (wrapped in `String` at the interfaces), JavaScript regular
expressions are embedded as explicit scanners with the exact
backtracking behaviour of the source patterns, and the asynchronous
parts (`run` for fallback sub-commands, `child_process.spawn` events)
are modelled by explicit oracles / event traces.  The `Math.random()`
placeholder markers of `expandCmd` are modelled structurally: the
expansion is kept as a list of literal and sub-command segments instead
of splicing marker strings (the markers are assumed fresh, which is the
source's own assumption).
-/

namespace CliUtils

/-- The whitespace class used by JavaScript's `\s` regex class and
`String.prototype.trim` (restricted to the characters that can occur
here: ASCII whitespace, NBSP, BOM and the Unicode line separators). -/
def isJsWs (c : Char) : Bool :=
  c = ' ' || c = '\t' || c = '\n' || c = '\r' || c = '\x0b' || c = '\x0c' ||
  c = '\u00A0' || c = '\uFEFF' || c = '\u2028' || c = '\u2029'

/-- JavaScript line terminators (the characters `.` does not match). -/
def isLineTerm (c : Char) : Bool :=
  c = '\n' || c = '\r' || c = '\u2028' || c = '\u2029'

/-- `String.prototype.trim` on character lists. -/
def jsTrimList (l : List Char) : List Char :=
  ((l.dropWhile isJsWs).reverse.dropWhile isJsWs).reverse

/-- `String.prototype.trim`. -/
def jsTrim (s : String) : String :=
  String.mk (jsTrimList s.data)

/-- `String.prototype.split` with a single-character separator
(JavaScript semantics: always at least one, possibly empty, segment). -/
def splitOnChar (sep : Char) : List Char → List (List Char)
  | [] => [[]]
  | c :: rest =>
    match splitOnChar sep rest with
    | [] => [[c]]
    | g :: gs => if c = sep then [] :: g :: gs else (c :: g) :: gs

/-- `Array.prototype.join` with an explicit separator. -/
def joinSep (sep : List Char) : List (List Char) → List Char
  | [] => []
  | [x] => x
  | x :: y :: rest => x ++ sep ++ joinSep sep (y :: rest)

/-- Greedy run of characters satisfying `p` (used for the `+`/`*`
quantifiers of the embedded regular expressions). -/
def spanP (p : Char → Bool) : List Char → List Char × List Char
  | [] => ([], [])
  | c :: rest =>
    if p c then
      let r := spanP p rest
      (c :: r.1, r.2)
    else ([], c :: rest)

theorem spanP_append (p : Char → Bool) : ∀ l : List Char, (spanP p l).1 ++ (spanP p l).2 = l
  | [] => rfl
  | c :: rest => by
    by_cases h : p c
    · simp [spanP, h, spanP_append p rest]
    · simp [spanP, h]

theorem spanP_snd_length_le (p : Char → Bool) (l : List Char) :
    (spanP p l).2.length ≤ l.length := by
  conv_rhs => rw [← spanP_append p l]
  simp

theorem spanP_fst_all (p : Char → Bool) (l : List Char) :
    ∀ c ∈ (spanP p l).1, p c := by
  induction l with
  | nil => simp [spanP]
  | cons c rest ih =>
    by_cases h : p c
    · simp only [spanP, h, if_true]
      intro x hx
      rcases List.mem_cons.mp hx with h1 | h1
      · exact h1 ▸ h
      · exact ih x h1
    · simp [spanP, h]

/-- On a list whose prefix consists entirely of `p`-characters followed by
a non-`p` character, `spanP` splits exactly at that boundary. -/
theorem spanP_exact (p : Char → Bool) (ds rest : List Char)
    (hds : ∀ c ∈ ds, p c) (hrest : ∀ h : rest ≠ [], ¬ p (rest.head h)) :
    spanP p (ds ++ rest) = (ds, rest) := by
  induction ds with
  | nil =>
    cases rest with
    | nil => rfl
    | cons c r =>
      have := hrest (by simp)
      simp only [List.head] at this
      simp [spanP, this]
  | cons c ds' ih =>
    have hc : p c = true := hds c (by simp)
    simp only [List.cons_append, spanP, hc, if_true]
    have := ih (fun x hx => hds x (by simp [hx]))
    rw [show ds'.append rest = ds' ++ rest from rfl, this]

/-- `Array.prototype.slice(start, end)` (JavaScript index clamping,
including negative indices counting from the end). -/
def jsSlice {α : Type} (l : List α) (s e : Int) : List α :=
  let st : Nat := if s < 0 then ((l.length : Int) + s).toNat else s.toNat
  let en : Nat := if e < 0 then ((l.length : Int) + e).toNat else e.toNat
  (l.take en).drop st

/-- Digits `[1-9]` (the `FROM(n)` index digits of the placeholder grammar). -/
def isDigit19 (c : Char) : Bool := '1' ≤ c && c ≤ '9'

/-- Decimal value of a digit run (JavaScript string-to-number coercion on
an all-digit string). -/
def natOfDigits (ds : List Char) : Nat :=
  ds.foldl (fun n c => n * 10 + (c.toNat - 48)) 0

/-- The `returnOutput` configuration value: JavaScript `boolean | number`,
with `Infinity` (used internally by `expandCmd`) singled out. -/
inductive RetOut
  | bool (b : Bool)
  | num (n : Nat)
  | inf
  deriving Repr, DecidableEq

/-- JavaScript truthiness of a `returnOutput` value (`0` is falsy). -/
def RetOut.truthy : RetOut → Bool
  | .bool b => b
  | .num n => decide (n ≠ 0)
  | .inf => true

/-- `typeof returnOutput === 'number'`. -/
def RetOut.isNumeric : RetOut → Bool
  | .bool _ => false
  | .num _ => true
  | .inf => true

/-- The `IRunConfig` configuration object of `command-utils.ts`.
`sapVersion = none` models the field being absent (the destructuring
default `sapVersion = 1` then applies). -/
structure IRunConfig where
  debug : Bool := false
  dryrun : Bool := false
  returnOutput : RetOut := .bool false
  sapVersion : Option Int := none
  suppressTbj : Bool := false
  deriving Repr, DecidableEq

/-- The kind of a matched placeholder: `ALL` (`$*`/`${*}`),
`FROM(n)` (`$n*`/`${n*}`) or `AT(n)` (`$n`/`${n}`). -/
inductive PHKind
  | all
  | fromIdx (n : Nat)
  | atIdx (n : Nat)
  deriving Repr, DecidableEq

/-- One match of the placeholder regular expression
`(\s{0,1})\\?\$(?:(\*)|([1-9]+)\*|(\d+)|{(?:(\*)|([1-9]+)\*|(\d+))(?::([^}]*))?})`:
the captured leading-whitespace character (`g1`), the kind, and the
optional fallback text (`g8`). -/
structure PHMatch where
  g1 : String
  kind : PHKind
  fallback : Option String
  deriving Repr, DecidableEq

/-- The `(?::([^}]*))?}` tail of the brace form: either `:` + fallback
text up to the first `}`, or an immediate `}`. -/
def braceTail (kind : PHKind) : List Char →
    Option (PHKind × Option String × List Char)
  | [] => none
  | c :: r2 =>
    if c = ':' then
      match spanP (fun x => !(x = '\x7d')) r2 with
      | (_, []) => none
      | (fb, c2 :: r4) => if c2 = '\x7d' then some (kind, some (String.mk fb), r4) else none
    else if c = '\x7d' then some (kind, none, r2)
    else none

/-- The greedy `([1-9]+)\*` fragment: a non-empty run of `[1-9]` digits
followed by a literal `*`, returning the numeric value and the remainder. -/
def fromStarSplit (l : List Char) : Option (Nat × List Char) :=
  match spanP isDigit19 l with
  | (_, []) => none
  | (ds, c2 :: r2) => if ds ≠ [] ∧ c2 = '*' then some (natOfDigits ds, r2) else none

/-- The greedy `(\d+)` fragment: a non-empty digit run, returning its
numeric value and the remainder. -/
def digitsSplit (l : List Char) : Option (Nat × List Char) :=
  match spanP Char.isDigit l with
  | ([], _) => none
  | (ds, r) => some (natOfDigits ds, r)

/-- The first two alternatives `(\*)|([1-9]+)\*` inside the braces,
each followed by the `braceTail`. -/
def braceMatchA : List Char → Option (PHKind × Option String × List Char)
  | [] => none
  | c :: rest =>
    if c = '*' then braceTail .all rest
    else
      match fromStarSplit (c :: rest) with
      | some (n, r2) => braceTail (.fromIdx n) r2
      | none => none

/-- The brace alternation `{(?:(\*)|([1-9]+)\*|(\d+))(?::([^}]*))?}`
(the argument `l` starts after the opening brace).  The fall-through to
the `(\d+)` alternative reproduces the regex engine's backtracking. -/
def braceMatch (l : List Char) : Option (PHKind × Option String × List Char) :=
  match braceMatchA l with
  | some r => some r
  | none =>
    match digitsSplit l with
    | some (n, r2) => braceTail (.atIdx n) r2
    | none => none

/-- The alternation after `\$`:
`(\*)|([1-9]+)\*|(\d+)|{...}`. -/
def altMatch : List Char → Option (PHKind × Option String × List Char)
  | [] => none
  | c :: rest =>
    if c = '*' then some (.all, none, rest)
    else if c = '\x7b' then braceMatch rest
    else
      match fromStarSplit (c :: rest) with
      | some (n, r2) => some (.fromIdx n, none, r2)
      | none =>
        match digitsSplit (c :: rest) with
        | some (n, r2) => some (.atIdx n, none, r2)
        | none => none

/-- The mandatory `\$` of the pattern. -/
def dollarMatch : List Char → Option (PHKind × Option String × List Char)
  | [] => none
  | c :: rest => if c = '$' then altMatch rest else none

/-- The `\\?\$...` core: an optional escaping backslash followed by the
dollar form (backtracking over the optional backslash cannot succeed,
since a consumed `\` is never a `$`). -/
def coreMatch : List Char → Option (PHKind × Option String × List Char)
  | [] => none
  | c :: rest => if c = '\\' then dollarMatch rest else dollarMatch (c :: rest)

/-- Attempt to match the whole placeholder pattern at the head of `l`
(including the optional single leading-whitespace capture `(\s{0,1})`),
returning the match and the unconsumed remainder. -/
def matchAt : List Char → Option (PHMatch × List Char)
  | [] => none
  | c :: rest =>
    if isJsWs c then
      (coreMatch rest).map (fun r => ({g1 := String.mk [c], kind := r.1, fallback := r.2.1}, r.2.2))
    else
      (coreMatch (c :: rest)).map (fun r => ({g1 := "", kind := r.1, fallback := r.2.1}, r.2.2))

theorem matchAt_cons (c : Char) (rest : List Char) :
    matchAt (c :: rest) =
      if isJsWs c then
        (coreMatch rest).map (fun r => ({g1 := String.mk [c], kind := r.1, fallback := r.2.1}, r.2.2))
      else
        (coreMatch (c :: rest)).map (fun r => ({g1 := "", kind := r.1, fallback := r.2.1}, r.2.2)) :=
  rfl

theorem braceTail_length {kind : PHKind} {l r : List Char} {k : PHKind} {fb : Option String}
    (h : braceTail kind l = some (k, fb, r)) : r.length < l.length := by
  unfold braceTail at h
  split at h
  · exact absurd h (by simp)
  · rename_i c r2
    split at h
    · split at h
      · exact absurd h (by simp)
      · rename_i fb0 c2 r4 hs
        split at h
        · simp only [Option.some.injEq, Prod.mk.injEq] at h
          obtain ⟨-, -, rfl⟩ := h
          have hle := spanP_snd_length_le (fun x => !(x = '\x7d')) r2
          rw [hs] at hle
          simp only [List.length_cons] at hle ⊢
          omega
        · exact absurd h (by simp)
    · split at h
      · simp only [Option.some.injEq, Prod.mk.injEq] at h
        obtain ⟨-, -, rfl⟩ := h
        simp
      · exact absurd h (by simp)

theorem fromStarSplit_length {l r : List Char} {n : Nat}
    (h : fromStarSplit l = some (n, r)) : r.length < l.length := by
  unfold fromStarSplit at h
  split at h
  · exact absurd h (by simp)
  · rename_i ds c2 r2 hs
    split at h
    · simp only [Option.some.injEq, Prod.mk.injEq] at h
      obtain ⟨-, rfl⟩ := h
      have hle := spanP_snd_length_le isDigit19 l
      rw [hs] at hle
      simp only [List.length_cons] at hle
      omega
    · exact absurd h (by simp)

theorem digitsSplit_length {l r : List Char} {n : Nat}
    (h : digitsSplit l = some (n, r)) : r.length < l.length := by
  unfold digitsSplit at h
  split at h
  · exact absurd h (by simp)
  · rename_i ds r2 hne heq
    simp only [Option.some.injEq, Prod.mk.injEq] at h
    obtain ⟨-, rfl⟩ := h
    have happ := spanP_append Char.isDigit l
    rw [heq] at happ
    have hlen : ds.length + r2.length = l.length := by
      rw [← happ]; simp
    have hdsne : ds ≠ [] := fun hcon => hne hcon
    have : 0 < ds.length := List.length_pos.mpr hdsne
    omega

theorem braceMatchA_length {l r : List Char} {k : PHKind} {fb : Option String}
    (h : braceMatchA l = some (k, fb, r)) : r.length < l.length := by
  unfold braceMatchA at h
  split at h
  · exact absurd h (by simp)
  · rename_i c rest
    split at h
    · have := braceTail_length h
      simp only [List.length_cons]
      omega
    · split at h
      · rename_i n r2 hfs
        have h1 := braceTail_length h
        have h2 := fromStarSplit_length hfs
        omega
      · exact absurd h (by simp)

theorem braceMatch_length {l r : List Char} {k : PHKind} {fb : Option String}
    (h : braceMatch l = some (k, fb, r)) : r.length < l.length := by
  unfold braceMatch at h
  split at h
  · rename_i res hA
    simp only [Option.some.injEq] at h
    subst h
    exact braceMatchA_length hA
  · split at h
    · rename_i n r2 hds
      have h1 := braceTail_length h
      have h2 := digitsSplit_length hds
      omega
    · exact absurd h (by simp)

theorem altMatch_length {l r : List Char} {k : PHKind} {fb : Option String}
    (h : altMatch l = some (k, fb, r)) : r.length < l.length := by
  unfold altMatch at h
  split at h
  · exact absurd h (by simp)
  · rename_i c rest
    split at h
    · simp only [Option.some.injEq, Prod.mk.injEq] at h
      obtain ⟨-, -, rfl⟩ := h
      simp
    · split at h
      · have := braceMatch_length h
        simp only [List.length_cons]
        omega
      · split at h
        · rename_i n r2 hfs
          simp only [Option.some.injEq, Prod.mk.injEq] at h
          obtain ⟨-, -, rfl⟩ := h
          exact fromStarSplit_length hfs
        · split at h
          · rename_i n r2 hds
            simp only [Option.some.injEq, Prod.mk.injEq] at h
            obtain ⟨-, -, rfl⟩ := h
            exact digitsSplit_length hds
          · exact absurd h (by simp)

theorem dollarMatch_length {l r : List Char} {k : PHKind} {fb : Option String}
    (h : dollarMatch l = some (k, fb, r)) : r.length < l.length := by
  unfold dollarMatch at h
  split at h
  · exact absurd h (by simp)
  · rename_i c rest
    split at h
    · have := altMatch_length h
      simp only [List.length_cons]
      omega
    · exact absurd h (by simp)

theorem coreMatch_length {l r : List Char} {k : PHKind} {fb : Option String}
    (h : coreMatch l = some (k, fb, r)) : r.length < l.length := by
  unfold coreMatch at h
  split at h
  · exact absurd h (by simp)
  · rename_i c rest
    split at h
    · have := dollarMatch_length h
      simp only [List.length_cons]
      omega
    · exact dollarMatch_length h

theorem matchAt_length {l r : List Char} {ph : PHMatch}
    (h : matchAt l = some (ph, r)) : r.length < l.length := by
  unfold matchAt at h
  split at h
  · exact absurd h (by simp)
  · rename_i c rest
    split at h
    · rcases Option.map_eq_some'.mp h with ⟨a, ha, hfa⟩
      have := @coreMatch_length rest a.2.2 a.1 a.2.1
        (show coreMatch rest = some (a.1, a.2.1, a.2.2) from by
          rw [ha])
      have hr : r = a.2.2 := by
        have := congrArg Prod.snd hfa
        simpa using this.symm
      subst hr
      simp only [List.length_cons]
      omega
    · rcases Option.map_eq_some'.mp h with ⟨a, ha, hfa⟩
      have := @coreMatch_length (c :: rest) a.2.2 a.1 a.2.1
        (show coreMatch (c :: rest) = some (a.1, a.2.1, a.2.2) from by
          rw [ha])
      have hr : r = a.2.2 := by
        have := congrArg Prod.snd hfa
        simpa using this.symm
      subst hr
      omega

/-- The left-to-right global scan of the `replace` call: at every
position first try the full pattern; on failure emit one literal
character and continue (non-overlapping matches, as with `/g`).
Structural recursion on a fuel argument; every step consumes at least
one character (`matchAt_length`), so the wrapper's `l.length + 1` fuel
never runs out. -/
def scanF : Nat → List Char → List (Sum Char PHMatch)
  | 0, _ => []
  | _ + 1, [] => []
  | fuel + 1, c :: rest =>
    match matchAt (c :: rest) with
    | some (m, r) => Sum.inr m :: scanF fuel r
    | none => Sum.inl c :: scanF fuel rest

/-- The global placeholder scan. -/
def scan (l : List Char) : List (Sum Char PHMatch) :=
  scanF (l.length + 1) l

theorem scanF_sufficient :
    ∀ fuel (l : List Char), l.length < fuel → scanF fuel l = scan l := by
  intro fuel
  induction fuel using Nat.strong_induction_on with
  | _ fuel ih =>
    intro l hl
    match fuel, l with
    | f + 1, [] => rfl
    | f + 1, c :: rest =>
      simp only [List.length_cons] at hl
      match hm : matchAt (c :: rest) with
      | some (m, r) =>
        have hr := matchAt_length hm
        simp only [List.length_cons] at hr
        have e1 : scanF (f + 1) (c :: rest) = Sum.inr m :: scanF f r := by
          simp only [scanF, hm]
        have e2 : scan (c :: rest) = Sum.inr m :: scanF (rest.length + 1) r := by
          simp only [scan, List.length_cons, scanF, hm]
        rw [e1, e2, ih f (by omega) r (by omega),
          ih (rest.length + 1) (by omega) r (by omega)]
      | none =>
        have e1 : scanF (f + 1) (c :: rest) = Sum.inl c :: scanF f rest := by
          simp only [scanF, hm]
        have e2 : scan (c :: rest) = Sum.inl c :: scanF (rest.length + 1) rest := by
          simp only [scan, List.length_cons, scanF, hm]
        rw [e1, e2, ih f (by omega) rest (by omega),
          ih (rest.length + 1) (by omega) rest (by omega)]

/-- Step equation of `scan` (unfolding one match attempt). -/
theorem scan_step (c : Char) (rest : List Char) :
    scan (c :: rest) =
      match matchAt (c :: rest) with
      | some (m, r) => Sum.inr m :: scan r
      | none => Sum.inl c :: scan rest := by
  match hm : matchAt (c :: rest) with
  | some (m, r) =>
    have hr := matchAt_length hm
    simp only [List.length_cons] at hr
    simp only [scan, List.length_cons, scanF, hm]
    rw [scanF_sufficient (rest.length + 1) r (by omega)]
    rfl
  | none =>
    simp only [scan, List.length_cons, scanF, hm]

/-- `startIdx` of the source:
`(g2 || g5) ? 0 : (g3 || g6 || g4 || g7) - 1` (JavaScript numeric
coercion of the captured digit string, minus one). -/
def PHKind.startIdx : PHKind → Int
  | .all => 0
  | .fromIdx n => (n : Int) - 1
  | .atIdx n => (n : Int) - 1

/-- `endIdx` of the source: `runtimeArgs.length` for the star kinds,
`+(g4 || g7)` for `AT(n)`. -/
def PHKind.endIdx (k : PHKind) (argc : Nat) : Int :=
  match k with
  | .all => argc
  | .fromIdx _ => argc
  | .atIdx n => n

/-- `Array.prototype.join(' ')` on the runtime arguments. -/
def joinArgs (l : List String) : String :=
  String.mk (joinSep [' '] (l.map String.data))

/-- `runtimeArgs.slice(startIdx, endIdx).join(' ')`: the candidate
substitution value of a matched placeholder. -/
def candidate (k : PHKind) (args : List String) : String :=
  joinArgs (jsSlice args k.startIdx (k.endIdx args.length))

/-- The `transformValue` closure of the `replace` callback: an empty
value erases the captured leading whitespace, a non-empty one is
prefixed with it. -/
def transformValue (g1 val : String) : String :=
  if val = "" then "" else g1 ++ val

/-- The `/^::(.+)$/` test on the fallback text: a command fallback is
`::` followed by at least one character, none of which is a line
terminator (`.` never matches a line terminator, and without the `m`
flag `$` only matches at the very end). -/
def cmdFallback (g8 : String) : Option String :=
  match g8.data with
  | a :: b :: c :: rest =>
    if a = ':' ∧ b = ':' ∧ (c :: rest).all (fun x => !isLineTerm x) then
      some (String.mk (c :: rest))
    else none
  | _ => none

/-- Split off the maximal trailing digit run. -/
def splitTrailingDigits (l : List Char) : List Char × List Char :=
  ((spanP Char.isDigit l.reverse).2.reverse, (spanP Char.isDigit l.reverse).1.reverse)

/-- The literal ` --gkcu-returnOutput=` marker. -/
def gkcuMarker : List Char := " --gkcu-returnOutput=".data

/-- The `replace(/ --gkcu-returnOutput=(\d+)$/, ...)` step of
`expandCmd`: when the sub-command ends in the marker followed by at
least one digit, that whole suffix is removed and the reference's
private `returnOutput` becomes the number; otherwise the sub-command is
unchanged and `returnOutput` stays `true`. -/
def stripRetOutSuffix (subCmd : String) : String × RetOut :=
  match splitTrailingDigits subCmd.data with
  | (pre, ds) =>
    if ds ≠ [] ∧ gkcuMarker.isSuffixOf pre then
      (String.mk (pre.take (pre.length - gkcuMarker.length)), .num (natOfDigits ds))
    else (subCmd, .bool true)

/-- The resolution of one regex match inside the `replace` callback:
either an immediate literal replacement or a command fallback still to
be executed (the sub-command string and its private `returnOutput`). -/
inductive Resolved
  | lit (s : String)
  | cmd (subCmd : String) (retOut : RetOut)
  deriving Repr, DecidableEq

/-- The body of the `replace` callback of `expandCmd`, up to the point
where a command fallback is deferred: compute the candidate value from
the runtime arguments; on an empty value with a truthy (non-empty)
fallback, either use the fallback text verbatim or defer the
`::`-command. -/
def resolveMatch (m : PHMatch) (args : List String) : Resolved :=
  if candidate m.kind args = "" then
    match m.fallback with
    | some g8 =>
      if g8 ≠ "" then
        match cmdFallback g8 with
        | none => .lit (transformValue m.g1 g8)
        | some sub =>
          match stripRetOutSuffix sub with
          | (subCmd, ro) => .cmd subCmd ro
      else .lit (transformValue m.g1 (candidate m.kind args))
    | none => .lit (transformValue m.g1 (candidate m.kind args))
  else .lit (transformValue m.g1 (candidate m.kind args))

/-- One registered reference to a sub-command (the `ISubCommandInfo` of
the source, with the `transformValue` closure represented by its
captured `g1`). -/
structure SubInfo where
  retOut : RetOut
  g1 : String
  deriving Repr, DecidableEq

/-- One segment of the partially expanded command: literal text, or a
reference to a (deduplicated) sub-command. -/
inductive Seg
  | lit (s : String)
  | sub (key : String) (retOut : RetOut) (g1 : String)
  deriving Repr, DecidableEq

/-- `if (!subCommands.has(subCmd)) subCommands.set(subCmd, []);
subCommands.get(subCmd).push(info)` — the insertion-ordered `Map` of the
source as an association list. -/
def registerSub (m : List (String × List SubInfo)) (key : String) (info : SubInfo) :
    List (String × List SubInfo) :=
  if m.any (fun e => e.1 = key) then
    m.map (fun e => if e.1 = key then (e.1, e.2 ++ [info]) else e)
  else m ++ [(key, [info])]

/-- Phase 1 of `expandCmd`: the single left-to-right `replace` pass,
producing the expansion segments and the sub-command map (accumulated in
insertion order). -/
def phase1 (items : List (Sum Char PHMatch)) (args : List String)
    (acc : List (String × List SubInfo)) :
    List Seg × List (String × List SubInfo) :=
  match items with
  | [] => ([], acc)
  | Sum.inl c :: rest =>
    match phase1 rest args acc with
    | (segs, m) => (.lit (String.mk [c]) :: segs, m)
  | Sum.inr ph :: rest =>
    match resolveMatch ph args with
    | .lit s =>
      match phase1 rest args acc with
      | (segs, m) => (.lit s :: segs, m)
    | .cmd subCmd ro =>
      match phase1 rest args (registerSub acc subCmd ⟨ro, ph.g1⟩) with
      | (segs, m) => (.sub subCmd ro ph.g1 :: segs, m)

/-- Rejection values of the promise machinery: a non-zero exit code, a
signal name, a spawn error, or the `Error` thrown for an unknown
`sapVersion`. -/
inductive RejectReason
  | exitCode (c : Int)
  | signal (s : String)
  | spawnErr (e : String)
  | parseErr (e : String)
  deriving Repr, DecidableEq

deriving instance DecidableEq for Except

/-- `internalUtils.escapeSeqs.resetBold`. -/
def escResetBold : String := "\u001B[0m"

/-- `internalUtils.escapeSeqs.showCursor`. -/
def escShowCursor : String := "\u001B[?25h"

/-- Single-pass removal of `/\u001b\[0m/gi` (the `i` flag makes the
final letter case-insensitive). -/
def stripResetBold : List Char → List Char
  | a :: b :: c :: d :: rest =>
    if a = '\u001B' ∧ b = '[' ∧ c = '0' ∧ (d = 'm' ∨ d = 'M') then stripResetBold rest
    else a :: stripResetBold (b :: c :: d :: rest)
  | l => l

/-- Single-pass removal of `/\u001b\[\?25h/gi`. -/
def stripShowCursor : List Char → List Char
  | a :: b :: c :: d :: e :: f :: rest =>
    if a = '\u001B' ∧ b = '[' ∧ c = '?' ∧ d = '2' ∧ e = '5' ∧ (f = 'h' ∨ f = 'H') then
      stripShowCursor rest
    else a :: stripShowCursor (b :: c :: d :: e :: f :: rest)
  | l => l

/-- The final letter class `[a-d]` of `/\u001b\[\d+[a-d]/gi`. -/
def isMoveLetter (c : Char) : Bool :=
  ('a' ≤ c && c ≤ 'd') || ('A' ≤ c && c ≤ 'D')

/-- Single-pass removal of `/\u001b\[\d+[a-d]/gi` (cursor-move
sequences).  Structural recursion on fuel; every step consumes at least
one character, so the wrapper's `l.length + 1` fuel never runs out. -/
def stripMoveCursorF : Nat → List Char → List Char
  | 0, l => l
  | _ + 1, [] => []
  | _ + 1, [a] => [a]
  | fuel + 1, a :: b :: rest =>
    if a = '\u001B' ∧ b = '[' then
      match spanP Char.isDigit rest with
      | (_ :: _, c2 :: r2) =>
        if isMoveLetter c2 then stripMoveCursorF fuel r2
        else a :: stripMoveCursorF fuel (b :: rest)
      | _ => a :: stripMoveCursorF fuel (b :: rest)
    else a :: stripMoveCursorF fuel (b :: rest)

/-- The cursor-move strip. -/
def stripMoveCursor (l : List Char) : List Char :=
  stripMoveCursorF (l.length + 1) l

/-- `internalUtils.stripOutputStyleResetSequences`: remove first the
`resetBold` then the `showCursor` sequences. -/
def stripOutputStyleResetSequences (s : String) : String :=
  String.mk (stripShowCursor (stripResetBold s.data))

/-- `CommandUtils.cleanUpOutput`: strip style-reset sequences, strip
cursor-move sequences, then trim. -/
def cleanUpOutput (s : String) : String :=
  jsTrim (String.mk (stripMoveCursor (stripShowCursor (stripResetBold s.data))))

/-- `CommandUtils.getLastLines`:
`input.split('\n').slice(-lineCount).join('\n').trim()`.
`none` models `lineCount = Infinity` (whose negation slices from the
start). -/
def getLastLines (input : String) (lineCount : Option Nat) : String :=
  match splitOnChar '\n' input.data with
  | lines =>
    let kept :=
      match lineCount with
      | some n => jsSlice lines (-(n : Int)) lines.length
      | none => lines
    jsTrim (String.mk (joinSep ['\n'] kept))

/-- The configuration used for fallback sub-commands:
`Object.assign({}, config, {returnOutput})`, with `returnOutput` set to
`Infinity` when some reference to this sub-command requested a numeric
width, else `true`. -/
def subConfig (config : IRunConfig) (infos : List SubInfo) : IRunConfig :=
  { config with
    returnOutput := if infos.any (fun i => i.retOut.isNumeric) then .inf else .bool true }

/-- Result of an `expandCmd` call: the expanded command (or the first
sub-command failure) plus the list of sub-command executions actually
launched (one `this.run(subCmd, runtimeArgs, runConfig)` per entry). -/
structure ExpandResult where
  expanded : Except RejectReason String
  executed : List (String × IRunConfig)
  deriving Repr

/-- The `cleanUpOutput`-processed results of all launched sub-commands,
keyed by sub-command string (map order). -/
def subOutputs (executed : List (String × IRunConfig))
    (oracle : String → IRunConfig → Except RejectReason String) :
    List (String × Except RejectReason String) :=
  executed.map (fun e => (e.1, (oracle e.1 e.2).map cleanUpOutput))

/-- The first sub-command failure (the value `Promise.all` rejects
with). -/
def firstError : List (String × Except RejectReason String) → Option RejectReason
  | [] => none
  | (_, .error e) :: _ => some e
  | (_, .ok _) :: rest => firstError rest

/-- Look up the shared output of a sub-command (the keys are distinct by
construction; `""` is returned only on the unreachable missing case). -/
def lookupOutput (outs : List (String × Except RejectReason String)) (key : String) : String :=
  match outs with
  | [] => ""
  | (k, v) :: rest =>
    if k = key then
      match v with
      | .ok s => s
      | .error _ => ""
    else lookupOutput rest key

/-- `value.replace(/\s/g, '_')`. -/
def underscoreWs (s : String) : String :=
  String.mk (s.data.map (fun c => if isJsWs c then '_' else c))

/-- The replacement computed for one sub-command reference: its own
last-N-lines subset of the shared output when it requested a numeric
width, the `{{...}}`-wrapped form under `dryrun`, and the reference's
captured leading whitespace via `transformValue`. -/
def subReplacement (dryrun : Bool) (g1 : String) (ro : RetOut) (shared : String) : String :=
  let value :=
    match ro with
    | .num n => getLastLines shared (some n)
    | .inf => getLastLines shared none
    | .bool _ => shared
  transformValue g1 (if dryrun then "\x7b\x7b" ++ underscoreWs value ++ "\x7d\x7d" else value)

/-- Splice the sub-command results back into the expansion segments
(the source replaces the unique random markers; the segments model the
markers structurally). -/
def assemble (segs : List Seg) (outs : List (String × Except RejectReason String))
    (dryrun : Bool) : String :=
  match segs with
  | [] => ""
  | .lit s :: rest => s ++ assemble rest outs dryrun
  | .sub key ro g1 :: rest =>
    subReplacement dryrun g1 ro (lookupOutput outs key) ++ assemble rest outs dryrun

/-- The `expandCmd` model.  `oracle` stands for
`this.run(subCmd, runtimeArgs, runConfig)`: the source launches it
exactly once per distinct sub-command string and `cleanUpOutput`s the
result; a failure of any launched sub-command fails the whole
expansion (`Promise.all`). -/
def expandCmdModel (cmd : String) (args : List String) (config : IRunConfig)
    (oracle : String → IRunConfig → Except RejectReason String) : ExpandResult :=
  match phase1 (scan cmd.data) args [] with
  | (segs, m) =>
    let executed := m.map (fun e => (e.1, subConfig config e.2))
    let outs := subOutputs executed oracle
    match firstError outs with
    | some e => { expanded := .error e, executed := executed }
    | none => { expanded := .ok (assemble segs outs config.dryrun), executed := executed }

/-- Try to match the stage separator `/\s+\|\s+/` at the head of `l`,
returning the remainder after the greedy match. -/
def matchPipeSep (l : List Char) : Option (List Char) :=
  match spanP isJsWs l with
  | ([], _) => none
  | (_ :: _, []) => none
  | (_ :: _, c :: r2) =>
    if c = '|' then
      match spanP isJsWs r2 with
      | ([], _) => none
      | (_ :: _, r3) => some r3
    else none

theorem matchPipeSep_length {l r : List Char} (h : matchPipeSep l = some r) :
    r.length < l.length := by
  unfold matchPipeSep at h
  split at h
  · exact absurd h (by simp)
  · exact absurd h (by simp)
  · rename_i w1h w1t c r2 heq
    split at h
    · split at h
      · exact absurd h (by simp)
      · rename_i w2h w2t r3 heq2
        simp only [Option.some.injEq] at h
        subst h
        have h1 := spanP_append isJsWs l
        rw [heq] at h1
        have h2 := spanP_append isJsWs r2
        rw [heq2] at h2
        simp only at h1 h2
        have e1 := congrArg List.length h1
        have e2 := congrArg List.length h2
        simp only [List.length_append, List.length_cons] at e1 e2
        omega
    · exact absurd h (by simp)

/-- `rawCmd.split(/\s+\|\s+/)`: split into pipeline stages (leftmost,
non-overlapping separator matches).  Structural recursion on fuel; every
step consumes at least one character (`matchPipeSep_length`), so the
wrapper's `l.length + 1` fuel never runs out. -/
def splitPipesF : Nat → List Char → List (List Char)
  | 0, _ => [[]]
  | _ + 1, [] => [[]]
  | fuel + 1, c :: rest =>
    match matchPipeSep (c :: rest) with
    | some r => [] :: splitPipesF fuel r
    | none =>
      match splitPipesF fuel rest with
      | [] => [[c]]
      | g :: gs => (c :: g) :: gs

/-- The stage split. -/
def splitPipes (l : List Char) : List (List Char) :=
  splitPipesF (l.length + 1) l

/-- One step of the quote-splitting `reduce` of `parseSingleCmd`:
odd-indexed segments (inside double quotes) become one re-quoted token,
even-indexed segments are split on spaces; a truthy (non-empty) last
token absorbs the first new token (`--flag="a b"` stays one token). -/
def qStep (acc : List (List Char)) (pr : Bool × List Char) : List (List Char) :=
  let newTokens := if pr.1 then [('"' :: pr.2) ++ ['"']] else splitOnChar ' ' pr.2
  match acc.getLast? with
  | some last =>
    if last ≠ [] then acc.dropLast ++ ((last ++ newTokens.headD []) :: newTokens.tail)
    else acc ++ newTokens
  | none => acc ++ newTokens

/-- `cmd.split('"').reduce(...)`: the quote-aware tokenizer. -/
def quoteTokens (cmd : List Char) : List (List Char) :=
  ((splitOnChar '"' cmd).enum.map (fun p => (p.1 % 2 == 1, p.2))).foldl qStep []

/-- The second `reduce`: a token starting with `(` is split into a
standalone `(` token and the remainder. -/
def parenSplit (t : List Char) : List (List Char) :=
  match t with
  | [] => [[]]
  | c :: rest => if c = '(' then [['('], rest] else [c :: rest]

/-- `CommandUtils.insertAt`: splice `newItem` in at `idx`, skipping over
a `(` sitting exactly at the insertion point. -/
def insertAt (items : List String) (newItem : String) (idx : Nat) : List String :=
  if items.get? idx = some "(" then
    items.take (idx + 1) ++ newItem :: items.drop (idx + 1)
  else
    items.take idx ++ newItem :: items.drop idx

theorem insertAt_length (items : List String) (newItem : String) (idx : Nat) :
    (insertAt items newItem idx).length = items.length + 1 := by
  unfold insertAt
  have h1 : ∀ j : Nat, (items.take j ++ newItem :: items.drop j).length = items.length + 1 := by
    intro j
    simp only [List.length_append, List.length_cons, List.length_take, List.length_drop]
    omega
  split
  · exact h1 (idx + 1)
  · exact h1 idx

/-- The index loop of `CommandUtils.insertAfter`: after an insertion at
`i + 1` the loop resumes at `i + 2` on the grown array.  Structural
recursion on fuel; `items.length - i` strictly decreases on every step
(an insertion grows the list by one but advances the index by two), so
the wrapper's `items.length + 1` fuel never runs out. -/
def insertAfterLoop : Nat → List String → String → String → Nat → List String
  | 0, items, _, _, _ => items
  | fuel + 1, items, newItem, afterItem, i =>
    if hi : i < items.length then
      if items.get ⟨i, hi⟩ = afterItem then
        insertAfterLoop fuel (insertAt items newItem (i + 1)) newItem afterItem (i + 2)
      else insertAfterLoop fuel items newItem afterItem (i + 1)
    else items

/-- `CommandUtils.insertAfter`. -/
def insertAfter (items : List String) (newItem afterItem : String) : List String :=
  insertAfterLoop (items.length + 1) items newItem afterItem 0

/-- `CommandUtils.transformForDryrun`: prefix `echo` and repeat it after
every `&&` and `||` token. -/
def transformForDryrun (tokens : List String) : List String :=
  insertAfter (insertAfter (insertAt tokens "echo" 0) "echo" "&&") "echo" "||"

/-- One pipeline stage: `{executable, args}`. -/
structure CmdSpec where
  executable : String
  args : List String
  deriving Repr, DecidableEq

/-- `CommandUtils.parseSingleCmd`: quote-aware tokenizing, dropping
empty tokens, splitting leading `(`, optional dryrun rewriting, then
`executable = tokens.shift() || ''` with the mutated array as `args`. -/
def parseSingleCmd (cmd : String) (dryrun : Bool) : CmdSpec :=
  match (((quoteTokens cmd.data).filter (fun t => t ≠ [])).flatMap parenSplit).map String.mk with
  | tokens1 =>
    match if dryrun then transformForDryrun tokens1 else tokens1 with
    | tokens => { executable := tokens.headD "", args := tokens.tail }

/-- Lowercase hexadecimal digit. -/
def hexDigit (n : Nat) : Char :=
  if n < 10 then Char.ofNat (48 + n) else Char.ofNat (87 + n)

/-- `JSON.stringify` escaping of one character of a string value. -/
def jsonEscapeChar (c : Char) : List Char :=
  if c = '"' then ['\\', '"']
  else if c = '\\' then ['\\', '\\']
  else if c = '\x08' then ['\\', 'b']
  else if c = '\t' then ['\\', 't']
  else if c = '\n' then ['\\', 'n']
  else if c = '\x0c' then ['\\', 'f']
  else if c = '\r' then ['\\', 'r']
  else if c.toNat < 0x20 then
    ['\\', 'u', '0', '0', hexDigit (c.toNat / 16), hexDigit (c.toNat % 16)]
  else [c]

/-- `JSON.stringify` of a string. -/
def jsonStringify (s : String) : String :=
  String.mk ('"' :: s.data.flatMap jsonEscapeChar ++ ['"'])

/-- `.replace(/'/g, '\\\'')`: escape single quotes. -/
def escapeSingleQuotes (s : String) : String :=
  String.mk (s.data.flatMap (fun c => if c = '\'' then ['\\', '\''] else [c]))

/-- A single-quote character as a string (kept out of string literals). -/
def sq : String := String.mk ['\'']

/-- The v2 dryrun wrapper:
`node --print '<JSON.stringify(rawCmd) with quotes escaped>'`. -/
def nodePrintWrap (rawCmd : String) : String :=
  "node --print " ++ sq ++ escapeSingleQuotes (jsonStringify rawCmd) ++ sq

/-- `CommandUtils.parseRawCmd`: v1 splits on ` | ` and tokenizes each
stage; v2 passes the raw command to the shell as a single stage; any
other `sapVersion` throws. -/
def parseRawCmd (rawCmd : String) (sapVersion : Int) (dryrun : Bool) :
    Except String (List CmdSpec) :=
  if sapVersion = 1 then
    .ok ((splitPipes rawCmd.data).map (fun c => parseSingleCmd (String.mk c) dryrun))
  else if sapVersion = 2 then
    .ok [{ args := [], executable := if !dryrun then rawCmd else nodePrintWrap rawCmd }]
  else
    .error ("Unknown " ++ sq ++ "sapVersion" ++ sq ++ " (" ++ toString sapVersion ++ ").")

/-- One event of a spawned stage process: a spawn `error`, or an `exit`
with a numeric code (signal `null`), or an `exit` by signal (code
`null`). -/
inductive StageEvent
  | errored (e : String)
  | exited (code : Int)
  | killed (sig : String)
  deriving Repr, DecidableEq

/-- A settled promise. -/
inductive Settled
  | resolved (s : String)
  | rejected (r : RejectReason)
  deriving Repr, DecidableEq

/-- The per-event handler of `spawnAsPromised`:
`on('error', reject)` and
`on('exit', (code, signal) => { if (code !== 0) return reject(code || signal);
if (isLast) return resolve(getReturnData()); })`. -/
def settleOf (numStages : Nat) (retData : String) (ev : Nat × StageEvent) :
    Option Settled :=
  match ev.2 with
  | .errored e => some (.rejected (.spawnErr e))
  | .exited c =>
    if c ≠ 0 then some (.rejected (.exitCode c))
    else if ev.1 = numStages - 1 then some (.resolved retData)
    else none
  | .killed sig => some (.rejected (.signal sig))

/-- Promise semantics: the first settling call wins; later calls are
ignored. -/
def processEvents (numStages : Nat) (retData : String) :
    List (Nat × StageEvent) → Option Settled
  | [] => none
  | ev :: rest =>
    match settleOf numStages retData ev with
    | some s => some s
    | none => processEvents numStages retData rest

/-- Observable completion behaviour of one `spawnAsPromised` call:
the `onDone` bundle (exit-hook cancellation, `suppressTbj`
un-suppression, conditional terminal-style writes) and the settling of
the returned promise, in execution order (`finallyAsPromised` runs
`onDone` first, then settles with the preserved outcome). -/
inductive SapAction
  | cleanup (cancelledExitHook : Bool) (unsuppressedTbj : Bool) (styleWrites : List String)
  | settle (s : Settled)
  deriving Repr, DecidableEq

/-- Result of a `spawnAsPromised` call: the parsed stages that were
spawned, the settlement of the returned promise (`none` when no stage
event ever settles it), and the completion actions in order. -/
structure SapResult where
  stages : List CmdSpec
  settled : Option Settled
  actions : List SapAction
  deriving Repr, DecidableEq

/-- The `getReturnData` closure: the raw accumulated data unless
`returnOutput` is numeric, in which case the last `n` lines of the
trimmed data. -/
def getReturnData (returnOutput : RetOut) (data : String) : String :=
  match returnOutput with
  | .num n => getLastLines (jsTrim data) (some n)
  | .inf => getLastLines (jsTrim data) none
  | .bool _ => data

/-- The terminal control sequences written by `cleanUp`: nothing when
the output was fully captured (`returnOutput` truthy and not numeric),
otherwise the style-reset and show-cursor sequences. -/
def cleanUpWrites (returnOutput : RetOut) : List String :=
  if returnOutput.truthy && !returnOutput.isNumeric then []
  else [escResetBold, escShowCursor]

/-- The `onDone` bundle: `unsuppressTbj(); cancelCleanUp(); cleanUp();`
(the un-suppression is a no-op unless `suppressTbj` was set). -/
def cleanupAction (config : IRunConfig) : SapAction :=
  .cleanup true config.suppressTbj (cleanUpWrites config.returnOutput)

/-- The `spawnAsPromised` model.  `events` is the chronological trace of
the spawned stages' `error`/`exit` events; `producedOutput` is the full
output of the final stage (accumulated by the `PassThrough` stream only
when `returnOutput` is truthy).  A parse error (unknown `sapVersion`)
is thrown inside the promise executor, rejecting before any stage is
spawned; `finallyAsPromised` then runs `onDone` exactly once before the
outer promise settles with the preserved outcome. -/
def spawnAsPromisedModel (rawCmd : String) (config : IRunConfig)
    (events : List (Nat × StageEvent)) (producedOutput : String) : SapResult :=
  match parseRawCmd rawCmd (config.sapVersion.getD 1) config.dryrun with
  | .error e =>
    { stages := [],
      settled := some (.rejected (.parseErr e)),
      actions := [cleanupAction config, .settle (.rejected (.parseErr e))] }
  | .ok specs =>
    match
      processEvents specs.length
        (getReturnData config.returnOutput
          (if config.returnOutput.truthy then producedOutput else ""))
        events
    with
    | none => { stages := specs, settled := none, actions := [] }
    | some s =>
      { stages := specs, settled := some s, actions := [cleanupAction config, .settle s] }

/-- The `run` model: expand the command (running fallback sub-commands
through `oracle`), then spawn the expanded command; an expansion failure
rejects `run` before `spawnAsPromised` is ever called. -/
def runModel (cmd : String) (args : List String) (config : IRunConfig)
    (oracle : String → IRunConfig → Except RejectReason String)
    (events : List (Nat × StageEvent)) (producedOutput : String) : SapResult :=
  match (expandCmdModel cmd args config oracle).expanded with
  | .ok expanded => spawnAsPromisedModel expanded config events producedOutput
  | .error err => { stages := [], settled := some (.rejected err), actions := [] }

section CandidateLemmas

theorem candidate_all (args : List String) : candidate .all args = joinArgs args := by
  simp only [candidate, jsSlice, PHKind.startIdx, PHKind.endIdx]
  rw [if_neg (by omega), if_neg (by omega)]
  have h1 : ((0 : Int)).toNat = 0 := by omega
  have h2 : ((args.length : Int)).toNat = args.length := by omega
  rw [h1, h2, List.take_length, List.drop_zero]

theorem candidate_fromIdx (n : Nat) (args : List String) (hn : 1 ≤ n) :
    candidate (.fromIdx n) args = joinArgs (args.drop (n - 1)) := by
  simp only [candidate, jsSlice, PHKind.startIdx, PHKind.endIdx]
  rw [if_neg (by omega), if_neg (by omega)]
  have h1 : ((n : Int) - 1).toNat = n - 1 := by omega
  have h2 : ((args.length : Int)).toNat = args.length := by omega
  rw [h1, h2, List.take_length]

theorem candidate_atIdx (n : Nat) (args : List String) (hn : 1 ≤ n) :
    candidate (.atIdx n) args =
      if hb : n - 1 < args.length then args.get ⟨n - 1, hb⟩ else "" := by
  simp only [candidate, jsSlice, PHKind.startIdx, PHKind.endIdx]
  rw [if_neg (by omega), if_neg (by omega)]
  have h1 : ((n : Int) - 1).toNat = n - 1 := by omega
  have h2 : ((n : Nat) : Int).toNat = n := by omega
  rw [h1, h2, List.drop_take]
  have h3 : n - (n - 1) = 1 := by omega
  rw [h3]
  cases hd : args.drop (n - 1) with
  | nil =>
    have hlen : args.length ≤ n - 1 := List.drop_eq_nil_iff.mp hd
    rw [dif_neg (by omega)]
    rfl
  | cons x xs =>
    have hlt : n - 1 < args.length := by
      by_contra hc
      rw [List.drop_eq_nil_iff.mpr (by omega)] at hd
      exact absurd hd (by simp)
    rw [dif_pos hlt]
    have hget := List.drop_eq_getElem_cons (n := n - 1) (l := args) hlt
    rw [hd] at hget
    have hx : x = args[n - 1] := (List.cons_eq_cons.mp hget).1
    simp only [List.take, hx, List.get_eq_getElem]
    show joinArgs [args[n - 1]] = args[n - 1]
    simp [joinArgs, joinSep]

theorem candidate_atIdx_zero (args : List String) : candidate (.atIdx 0) args = "" := by
  simp only [candidate, jsSlice, PHKind.startIdx, PHKind.endIdx]
  have h1 : ((0 : Nat) : Int) - 1 < 0 := by omega
  have h2 : ¬ (((0 : Nat) : Int) < 0) := by omega
  rw [if_pos h1, if_neg h2]
  have h3 : ((0 : Nat) : Int).toNat = 0 := by omega
  rw [h3, List.take_zero, List.drop_nil]
  rfl

end CandidateLemmas

section GrammarLemmas

theorem natOfDigits_go_pos (ds : List Char) :
    ∀ a : Nat, 1 ≤ a → 1 ≤ ds.foldl (fun n c => n * 10 + (c.toNat - 48)) a := by
  induction ds with
  | nil => intro a ha; exact ha
  | cons c rest ih =>
    intro a ha
    simp only [List.foldl_cons]
    exact ih _ (by omega)

theorem natOfDigits_pos (ds : List Char) (hne : ds ≠ [])
    (hds : ∀ c ∈ ds, isDigit19 c) : 1 ≤ natOfDigits ds := by
  match ds, hne with
  | d :: rest, _ =>
    have hd : isDigit19 d := hds d (by simp)
    have hd1 : 49 ≤ d.toNat := by
      simp only [isDigit19, Bool.and_eq_true, decide_eq_true_eq] at hd
      exact hd.1
    simp only [natOfDigits, List.foldl_cons]
    exact natOfDigits_go_pos rest _ (by omega)

theorem fromStarSplit_pos {l : List Char} {n : Nat} {r : List Char}
    (h : fromStarSplit l = some (n, r)) : 1 ≤ n := by
  unfold fromStarSplit at h
  split at h
  · exact absurd h (by simp)
  · rename_i ds c2 r2 hs
    split at h
    · rename_i hcond
      simp only [Option.some.injEq, Prod.mk.injEq] at h
      obtain ⟨rfl, -⟩ := h
      have hall := spanP_fst_all isDigit19 l
      rw [hs] at hall
      exact natOfDigits_pos ds hcond.1 hall
    · exact absurd h (by simp)

theorem braceTail_kind {kind : PHKind} {l : List Char} {k : PHKind} {fb : Option String}
    {r : List Char} (h : braceTail kind l = some (k, fb, r)) : k = kind := by
  unfold braceTail at h
  split at h
  · exact absurd h (by simp)
  · split at h
    · split at h
      · exact absurd h (by simp)
      · split at h
        · simp only [Option.some.injEq, Prod.mk.injEq] at h
          exact h.1.symm
        · exact absurd h (by simp)
    · split at h
      · simp only [Option.some.injEq, Prod.mk.injEq] at h
        exact h.1.symm
      · exact absurd h (by simp)

theorem braceMatchA_fromIdx {l : List Char} {n : Nat} {fb : Option String} {r : List Char}
    (h : braceMatchA l = some (.fromIdx n, fb, r)) : 1 ≤ n := by
  unfold braceMatchA at h
  split at h
  · exact absurd h (by simp)
  · split at h
    · have := braceTail_kind h
      exact absurd this (by simp)
    · split at h
      · rename_i m r2 hfs
        have hk := braceTail_kind h
        have hm := fromStarSplit_pos hfs
        have : n = m := by injection hk
        omega
      · exact absurd h (by simp)

theorem braceMatch_fromIdx {l : List Char} {n : Nat} {fb : Option String} {r : List Char}
    (h : braceMatch l = some (.fromIdx n, fb, r)) : 1 ≤ n := by
  unfold braceMatch at h
  split at h
  · rename_i res hA
    simp only [Option.some.injEq] at h
    subst h
    exact braceMatchA_fromIdx hA
  · split at h
    · have := braceTail_kind h
      exact absurd this (by simp)
    · exact absurd h (by simp)

theorem altMatch_fromIdx {l : List Char} {n : Nat} {fb : Option String} {r : List Char}
    (h : altMatch l = some (.fromIdx n, fb, r)) : 1 ≤ n := by
  unfold altMatch at h
  split at h
  · exact absurd h (by simp)
  · split at h
    · simp at h
    · split at h
      · exact braceMatch_fromIdx h
      · split at h
        · rename_i m r2 hfs
          simp only [Option.some.injEq, Prod.mk.injEq, PHKind.fromIdx.injEq] at h
          obtain ⟨rfl, -⟩ := h
          exact fromStarSplit_pos hfs
        · split at h
          · simp at h
          · exact absurd h (by simp)

theorem dollarMatch_fromIdx {l : List Char} {n : Nat} {fb : Option String} {r : List Char}
    (h : dollarMatch l = some (.fromIdx n, fb, r)) : 1 ≤ n := by
  unfold dollarMatch at h
  split at h
  · exact absurd h (by simp)
  · split at h
    · exact altMatch_fromIdx h
    · exact absurd h (by simp)

theorem coreMatch_fromIdx {l : List Char} {n : Nat} {fb : Option String} {r : List Char}
    (h : coreMatch l = some (.fromIdx n, fb, r)) : 1 ≤ n := by
  unfold coreMatch at h
  split at h
  · exact absurd h (by simp)
  · split at h
    · exact dollarMatch_fromIdx h
    · exact dollarMatch_fromIdx h

/-- The grammar never produces `FROM(0)`: every matched `FROM(n)`
placeholder has a positive index (the digits come from `[1-9]+`). -/
theorem matchAt_fromIdx_pos {l : List Char} {m : PHMatch} {r : List Char} {n : Nat}
    (h : matchAt l = some (m, r)) (hk : m.kind = .fromIdx n) : 1 ≤ n := by
  unfold matchAt at h
  split at h
  · exact absurd h (by simp)
  · rename_i c rest
    split at h
    · rcases Option.map_eq_some'.mp h with ⟨a, ha, hfa⟩
      have hm : m = {g1 := String.mk [c], kind := a.1, fallback := a.2.1} := by
        have := congrArg Prod.fst hfa
        simpa using this.symm
      rw [hm] at hk
      simp only at hk
      exact coreMatch_fromIdx (show coreMatch rest = some (.fromIdx n, a.2.1, a.2.2) from by
        rw [ha, ← hk])
    · rcases Option.map_eq_some'.mp h with ⟨a, ha, hfa⟩
      have hm : m = {g1 := "", kind := a.1, fallback := a.2.1} := by
        have := congrArg Prod.fst hfa
        simpa using this.symm
      rw [hm] at hk
      simp only at hk
      exact coreMatch_fromIdx (show coreMatch (c :: rest) = some (.fromIdx n, a.2.1, a.2.2) from by
        rw [ha, ← hk])

/-- A fallback text that does not start with `::` is never a command
fallback. -/
theorem cmdFallback_none {g8 : String} (h : g8.data.take 2 ≠ [':', ':']) :
    cmdFallback g8 = none := by
  unfold cmdFallback
  split
  · rename_i a b c rest heq
    rw [if_neg]
    intro hcon
    apply h
    rw [heq]
    simp [hcon.1, hcon.2.1]
  · rfl

theorem transformValue_empty_g1 (v : String) : transformValue "" v = v := by
  unfold transformValue
  split
  · rename_i hv; rw [hv]
  · simp

end GrammarLemmas

/-- C1: every placeholder matched by `expandCmd` draws its candidate
value from the runtime arguments as specified: ALL joins all arguments
with single spaces; FROM(n) joins the arguments from index `n - 1` to
the end; AT(n) is the argument at index `n - 1` when within bounds and
empty otherwise; AT(0) always yields the empty candidate (and FROM(0)
is never produced by the grammar, so it never binds an argument); when
the candidate is empty and a fallback not starting with `::` is
present, that fallback text is substituted verbatim (behind the
leading-whitespace handling of `transformValue`).  In particular
`expandCmd("$*", [])` is `""`, `expandCmd("$*", ["a","b"])` is
`"a b"`, `expandCmd("${2:bar}", ["a"])` is `"bar"` and
`expandCmd("${2:bar}", ["a","b"])` is `"b"`. -/
theorem c1_candidate_resolution :
    (∀ args : List String, candidate .all args = joinArgs args)
    ∧ (∀ (n : Nat) (args : List String), 1 ≤ n →
        candidate (.fromIdx n) args = joinArgs (args.drop (n - 1)))
    ∧ (∀ (n : Nat) (args : List String), 1 ≤ n →
        candidate (.atIdx n) args =
          if hb : n - 1 < args.length then args.get ⟨n - 1, hb⟩ else "")
    ∧ (∀ args : List String, candidate (.atIdx 0) args = "")
    ∧ (∀ (l r : List Char) (m : PHMatch) (n : Nat),
        matchAt l = some (m, r) → m.kind = .fromIdx n → 1 ≤ n)
    ∧ (∀ (m : PHMatch) (args : List String) (g8 : String),
        m.fallback = some g8 → candidate m.kind args = "" →
        g8.data.take 2 ≠ [':', ':'] →
        resolveMatch m args = .lit (transformValue m.g1 g8))
    ∧ (∀ oracle, (expandCmdModel "$*" [] {} oracle).expanded = .ok "")
    ∧ (∀ oracle, (expandCmdModel "$*" ["a", "b"] {} oracle).expanded = .ok "a b")
    ∧ (∀ oracle, (expandCmdModel "$\x7b2:bar\x7d" ["a"] {} oracle).expanded = .ok "bar")
    ∧ (∀ oracle, (expandCmdModel "$\x7b2:bar\x7d" ["a", "b"] {} oracle).expanded = .ok "b") := by
  refine ⟨candidate_all, candidate_fromIdx, candidate_atIdx, candidate_atIdx_zero,
    fun l r m n h hk => matchAt_fromIdx_pos h hk, ?_, fun _ => rfl, fun _ => rfl,
    fun _ => rfl, fun _ => rfl⟩
  intro m args g8 hfb hval htake
  unfold resolveMatch
  rw [hval, if_pos rfl, hfb]
  by_cases hg8 : g8 = ""
  · subst hg8
    simp
  · simp only [Option.some.injEq, ne_eq, hg8, not_false_eq_true, if_true,
      cmdFallback_none htake]

/-- C1 witness: the clauses of `c1_candidate_resolution` applied at
concrete inputs. -/
theorem c1_candidate_resolution_witness :
    candidate (.fromIdx 2) ["a", "b", "c"] = "b c"
    ∧ candidate (.atIdx 2) ["a"] = ""
    ∧ candidate (.atIdx 2) ["a", "b"] = "b"
    ∧ resolveMatch ⟨" ", .atIdx 2, some "bar"⟩ ["a"] = .lit " bar" := by
  obtain ⟨-, hfrom, hat, -, -, hlit, -⟩ := c1_candidate_resolution
  refine ⟨(hfrom 2 ["a", "b", "c"] (by omega)).trans (by decide),
    (hat 2 ["a"] (by omega)).trans (by decide),
    (hat 2 ["a", "b"] (by omega)).trans (by decide),
    (hlit ⟨" ", .atIdx 2, some "bar"⟩ ["a"] "bar" rfl (by decide) (by decide)).trans ?_⟩
  decide

theorem coreMatch_backslash (cs : List Char) :
    coreMatch ('\\' :: '$' :: cs) = coreMatch ('$' :: cs) := by
  simp only [coreMatch]
  rw [if_neg (show ¬('$' = '\\') by decide)]
  simp

theorem matchAt_backslash (cs : List Char) :
    matchAt ('\\' :: '$' :: cs) = matchAt ('$' :: cs) := by
  simp only [matchAt]
  rw [if_neg (by decide), if_neg (by decide), coreMatch_backslash]

/-- C6: a backslash-escaped placeholder expands exactly like its
unescaped form and the backslash never reaches the output: the matcher
treats `\$...` and `$...` identically, a whole template starting with
an escaped placeholder (when the placeholder matches) expands to the
same result as the unescaped template, and in particular
`expandCmd("\$1", ["x"])` equals `expandCmd("$1", ["x"])` (both
`"x"`). -/
theorem c6_escaped_placeholder :
    (∀ cs : List Char, coreMatch ('\\' :: '$' :: cs) = coreMatch ('$' :: cs))
    ∧ (∀ (s : String) (args : List String) (config : IRunConfig) oracle,
        matchAt ('$' :: s.data) ≠ none →
        expandCmdModel ("\x5c$" ++ s) args config oracle
          = expandCmdModel ("$" ++ s) args config oracle)
    ∧ (∀ oracle, (expandCmdModel "\x5c$1" ["x"] {} oracle).expanded = .ok "x")
    ∧ (∀ oracle, (expandCmdModel "$1" ["x"] {} oracle).expanded = .ok "x") := by
  refine ⟨coreMatch_backslash, ?_, fun _ => rfl, fun _ => rfl⟩
  intro s args config oracle hne
  have hdata1 : ("\x5c$" ++ s).data = '\\' :: '$' :: s.data := by
    rw [String.data_append]
    rfl
  have hdata2 : ("$" ++ s).data = '$' :: s.data := by
    rw [String.data_append]
    rfl
  have hscan : scan (("\x5c$" ++ s).data) = scan (("$" ++ s).data) := by
    rw [hdata1, hdata2]
    match hm : matchAt ('$' :: s.data) with
    | none => exact absurd hm hne
    | some (m, r) =>
      rw [scan_step, scan_step, matchAt_backslash, hm]
  unfold expandCmdModel
  rw [hscan]

/-- C6 witness: the template equality applied at the concrete escaped
template `\$1` with argument list `["x"]`. -/
theorem c6_escaped_placeholder_witness :
    expandCmdModel "\x5c$1" ["x"] {} (fun _ _ => Except.ok "")
      = expandCmdModel "$1" ["x"] {} (fun _ _ => Except.ok "") := by
  have h := c6_escaped_placeholder.2.1 "1" ["x"] {} (fun _ _ => Except.ok "")
    (by decide)
  exact h

theorem isDigit19_ne_star {c : Char} (h : isDigit19 c = true) : c ≠ '*' := by
  intro hc
  subst hc
  exact absurd h (by decide)

theorem isDigit19_ne_lbrace {c : Char} (h : isDigit19 c = true) : c ≠ '\x7b' := by
  intro hc
  subst hc
  exact absurd h (by decide)

theorem fromStarSplit_exact (ds tail : List Char) (hne : ds ≠ [])
    (hds : ∀ c ∈ ds, isDigit19 c) :
    fromStarSplit (ds ++ '*' :: tail) = some (natOfDigits ds, tail) := by
  unfold fromStarSplit
  rw [spanP_exact isDigit19 ds ('*' :: tail) hds
    (fun h => by rw [List.head_cons]; decide)]
  simp [hne]

theorem altMatch_fromStar (ds tail : List Char) (hne : ds ≠ [])
    (hds : ∀ c ∈ ds, isDigit19 c) :
    altMatch (ds ++ '*' :: tail) = some (.fromIdx (natOfDigits ds), none, tail) := by
  match ds, hne with
  | d :: ds2, _ =>
    have hd : isDigit19 d := hds d (by simp)
    rw [List.cons_append]
    simp only [altMatch]
    rw [if_neg (isDigit19_ne_star hd), if_neg (isDigit19_ne_lbrace hd)]
    rw [show (d :: (ds2 ++ '*' :: tail)) = (d :: ds2) ++ '*' :: tail from rfl,
      fromStarSplit_exact (d :: ds2) tail (by simp) hds]

theorem matchAt_fromStar (ds tail : List Char) (hne : ds ≠ [])
    (hds : ∀ c ∈ ds, isDigit19 c) :
    matchAt ('$' :: ds ++ '*' :: tail)
      = some (⟨"", .fromIdx (natOfDigits ds), none⟩, tail) := by
  rw [List.cons_append, matchAt_cons, if_neg (by decide)]
  simp only [coreMatch]
  rw [if_neg (by decide)]
  simp only [dollarMatch, if_true]
  rw [altMatch_fromStar ds tail hne hds]
  rfl

theorem braceMatch_fromStar (ds tail : List Char) (hne : ds ≠ [])
    (hds : ∀ c ∈ ds, isDigit19 c) :
    braceMatch (ds ++ '*' :: '\x7d' :: tail)
      = some (.fromIdx (natOfDigits ds), none, tail) := by
  have hA : braceMatchA (ds ++ '*' :: '\x7d' :: tail)
      = some (.fromIdx (natOfDigits ds), none, tail) := by
    match ds, hne with
    | d :: ds2, _ =>
      have hd : isDigit19 d := hds d (by simp)
      rw [List.cons_append]
      simp only [braceMatchA]
      rw [if_neg (isDigit19_ne_star hd)]
      rw [show (d :: (ds2 ++ '*' :: '\x7d' :: tail)) = (d :: ds2) ++ '*' :: '\x7d' :: tail
        from rfl]
      rw [fromStarSplit_exact (d :: ds2) ('\x7d' :: tail) (by simp) hds]
      simp [braceTail]
  unfold braceMatch
  rw [hA]

theorem matchAt_braceFromStar (ds tail : List Char) (hne : ds ≠ [])
    (hds : ∀ c ∈ ds, isDigit19 c) :
    matchAt ('$' :: '\x7b' :: ds ++ '*' :: '\x7d' :: tail)
      = some (⟨"", .fromIdx (natOfDigits ds), none⟩, tail) := by
  rw [List.cons_append, List.cons_append, matchAt_cons, if_neg (by decide)]
  simp only [coreMatch]
  rw [if_neg (by decide)]
  simp only [dollarMatch, if_true]
  simp only [altMatch]
  rw [if_neg (by decide)]
  simp only [if_true]
  rw [braceMatch_fromStar ds tail hne hds]
  rfl

theorem resolveMatch_no_fallback (m : PHMatch) (args : List String)
    (h : m.fallback = none) :
    resolveMatch m args = .lit (transformValue m.g1 (candidate m.kind args)) := by
  unfold resolveMatch
  rw [h]
  split <;> rfl

/-- C5 counterexample: for the positive integer `n = 10` the form
`$10*` is not recognized as `FROM(10)` — the regex digits for the
star forms are `[1-9]+`, so `$10*` matches as `AT(10)` with a literal
`*` left over, and `${10*}` does not match at all; with no runtime
arguments the claim (FROM(10)) would give `""`, but the code yields
`"*"` and `"${10*}"` respectively. -/
theorem c5_counterexample :
    (expandCmdModel "$10*" [] {} (fun _ _ => Except.ok "")).expanded = .ok "*"
    ∧ (expandCmdModel "$\x7b10*\x7d" [] {} (fun _ _ => Except.ok "")).expanded
        = .ok "$\x7b10*\x7d"
    ∧ (Except.ok "*" : Except RejectReason String) ≠ .ok ""
    ∧ (Except.ok "$\x7b10*\x7d" : Except RejectReason String) ≠ .ok "" := by
  refine ⟨by decide, by decide, by decide, by decide⟩

/-- C5 amended: for every positive integer n all of whose decimal
digits are in `1`–`9` (the `[1-9]+` class of the grammar — indices
containing a `0` digit are parsed as `AT` instead), the forms `$n*` and
`${n*}` are recognized as `FROM(n)` and substituted with the runtime
arguments from the nth one to the last, joined by single spaces. -/
theorem c5_amended (ds : List Char) (args : List String) (config : IRunConfig)
    (oracle : String → IRunConfig → Except RejectReason String)
    (hne : ds ≠ []) (hds : ∀ c ∈ ds, isDigit19 c) :
    (expandCmdModel (String.mk ('$' :: ds ++ ['*'])) args config oracle).expanded
        = .ok (joinArgs (args.drop (natOfDigits ds - 1)))
    ∧ (expandCmdModel (String.mk ('$' :: '\x7b' :: ds ++ ['*', '\x7d'])) args config oracle).expanded
        = .ok (joinArgs (args.drop (natOfDigits ds - 1))) := by
  have hpos : 1 ≤ natOfDigits ds := natOfDigits_pos ds hne hds
  have hm : ∀ l : List Char,
      matchAt l = some (⟨"", .fromIdx (natOfDigits ds), none⟩, []) →
      (expandCmdModel (String.mk l) args config oracle).expanded
        = .ok (joinArgs (args.drop (natOfDigits ds - 1))) := by
    intro l hl
    have hscan : scan l = [Sum.inr ⟨"", .fromIdx (natOfDigits ds), none⟩] := by
      match l, hl with
      | c :: rest, hl =>
        rw [scan_step, hl]
        rfl
    unfold expandCmdModel
    simp only
    rw [hscan]
    simp only [phase1,
      resolveMatch_no_fallback ⟨"", .fromIdx (natOfDigits ds), none⟩ args rfl]
    rw [candidate_fromIdx (natOfDigits ds) args hpos, transformValue_empty_g1]
    simp [assemble, subOutputs, firstError]
  refine ⟨hm _ ?_, hm _ ?_⟩
  · exact matchAt_fromStar ds [] hne hds
  · exact matchAt_braceFromStar ds [] hne hds

/-- C5 witness: the amended statement applied at `$2*` and `${2*}` with
three runtime arguments. -/
theorem c5_amended_witness :
    (expandCmdModel (String.mk ('$' :: ['2'] ++ ['*'])) ["a", "b", "c"] {}
        (fun _ _ => Except.ok "")).expanded = .ok "b c"
    ∧ (expandCmdModel (String.mk ('$' :: '\x7b' :: ['2'] ++ ['*', '\x7d'])) ["a", "b", "c"] {}
        (fun _ _ => Except.ok "")).expanded = .ok "b c" := by
  have h := c5_amended ['2'] ["a", "b", "c"] {} (fun _ _ => Except.ok "")
    (by decide) (by decide)
  exact ⟨h.1.trans (by decide), h.2.trans (by decide)⟩

section MemoLemmas

theorem registerSub_keys_eq (m : List (String × List SubInfo)) (key : String) (info : SubInfo) :
    (registerSub m key info).map Prod.fst =
      if m.any (fun e => e.1 = key) then m.map Prod.fst else m.map Prod.fst ++ [key] := by
  unfold registerSub
  split
  · rw [List.map_map]
    apply List.map_congr_left
    intro e he
    by_cases h : e.1 = key <;> simp [h]
  · simp

theorem registerSub_nodup {m : List (String × List SubInfo)} {key : String} {info : SubInfo}
    (h : (m.map Prod.fst).Nodup) : ((registerSub m key info).map Prod.fst).Nodup := by
  rw [registerSub_keys_eq]
  split
  · exact h
  · rename_i hany
    have hnotin : key ∉ m.map Prod.fst := by
      intro hin
      apply hany
      rcases List.mem_map.mp hin with ⟨e, he, hfst⟩
      exact List.any_eq_true.mpr ⟨e, he, by simp [hfst]⟩
    simp [List.nodup_append, h, hnotin]

theorem phase1_nodup (items : List (Sum Char PHMatch)) (args : List String) :
    ∀ acc : List (String × List SubInfo), (acc.map Prod.fst).Nodup →
      (((phase1 items args acc).2).map Prod.fst).Nodup := by
  induction items with
  | nil => intro acc hacc; exact hacc
  | cons it rest ih =>
    intro acc hacc
    match it with
    | Sum.inl c =>
      have h1 := ih acc hacc
      simp only [phase1]
      rcases hp : phase1 rest args acc with ⟨segs, m⟩
      rw [hp] at h1
      simpa using h1
    | Sum.inr ph =>
      simp only [phase1]
      rcases hres : resolveMatch ph args with s | ⟨subCmd, ro⟩
      · have h1 := ih acc hacc
        rcases hp : phase1 rest args acc with ⟨segs, m⟩
        rw [hp] at h1
        simpa [hp] using h1
      · have h1 := ih (registerSub acc subCmd ⟨ro, ph.g1⟩) (registerSub_nodup hacc)
        rcases hp : phase1 rest args (registerSub acc subCmd ⟨ro, ph.g1⟩) with ⟨segs, m⟩
        rw [hp] at h1
        simpa [hp] using h1

theorem expandCmdModel_executed (cmd : String) (args : List String) (config : IRunConfig)
    (oracle : String → IRunConfig → Except RejectReason String) :
    (expandCmdModel cmd args config oracle).executed
      = ((phase1 (scan cmd.data) args []).2).map (fun e => (e.1, subConfig config e.2)) := by
  unfold expandCmdModel
  match hp : phase1 (scan cmd.data) args [] with
  | (segs, m) =>
    simp only
    split <;> rfl

end MemoLemmas

/-- C2: command-fallback deduplication.  In every expansion the
sub-command map is keyed by the exact (post-strip) sub-command string
and each distinct string is executed exactly once (the executed list
has pairwise distinct keys); in the spec's example
`"${3:::cmd} ${3:::cmd --gkcu-returnOutput=2}"` with no third runtime
argument, `cmd` is launched once (with capturing configuration) and
both placeholders are substituted from that single shared execution's
cleaned output — the second extracting its own last-2-lines subset. -/
theorem c2_memoization :
    (∀ (cmd : String) (args : List String) (config : IRunConfig) oracle,
        ((expandCmdModel cmd args config oracle).executed.map Prod.fst).Nodup)
    ∧ (∀ (s : String) oracle,
        oracle "cmd" ({ returnOutput := RetOut.inf } : IRunConfig) = .ok s →
        (expandCmdModel "$\x7b3:::cmd\x7d $\x7b3:::cmd --gkcu-returnOutput=2\x7d" [] {}
            oracle).executed
          = [("cmd", { returnOutput := RetOut.inf })]
        ∧ (expandCmdModel "$\x7b3:::cmd\x7d $\x7b3:::cmd --gkcu-returnOutput=2\x7d" [] {}
            oracle).expanded
          = .ok (cleanUpOutput s
              ++ transformValue " " (getLastLines (cleanUpOutput s) (some 2)))) := by
  constructor
  · intro cmd args config oracle
    rw [expandCmdModel_executed, List.map_map]
    have : (Prod.fst ∘ fun e : String × List SubInfo => (e.1, subConfig config e.2))
        = Prod.fst := by
      funext e
      rfl
    rw [this]
    exact phase1_nodup _ args [] (by simp)
  · intro s oracle h
    have hphase : phase1 (scan ("$\x7b3:::cmd\x7d $\x7b3:::cmd --gkcu-returnOutput=2\x7d").data) [] []
        = ([Seg.sub "cmd" (.bool true) "", Seg.sub "cmd" (.num 2) " "],
           [("cmd", [⟨.bool true, ""⟩, ⟨.num 2, " "⟩])]) := by decide
    have hsub : subConfig {} [⟨RetOut.bool true, ""⟩, ⟨RetOut.num 2, " "⟩]
        = ({ returnOutput := RetOut.inf } : IRunConfig) := by decide
    unfold expandCmdModel
    rw [hphase]
    simp only [subOutputs, List.map_cons, List.map_nil, hsub, h, Except.map, firstError]
    constructor
    · trivial
    · simp only [assemble, subReplacement, lookupOutput, if_pos rfl,
        transformValue_empty_g1, String.append_empty]
      simp [transformValue]

/-- C2 witness: the memoization example instantiated with a concrete
three-line oracle output. -/
theorem c2_memoization_witness :
    (expandCmdModel "$\x7b3:::cmd\x7d $\x7b3:::cmd --gkcu-returnOutput=2\x7d" [] {}
        (fun _ _ => Except.ok "l1\nl2\nl3")).executed
      = [("cmd", { returnOutput := RetOut.inf })]
    ∧ (expandCmdModel "$\x7b3:::cmd\x7d $\x7b3:::cmd --gkcu-returnOutput=2\x7d" [] {}
        (fun _ _ => Except.ok "l1\nl2\nl3")).expanded
      = .ok "l1\nl2\nl3 l2\nl3" := by
  have h := c2_memoization.2 "l1\nl2\nl3" (fun _ _ => Except.ok "l1\nl2\nl3") rfl
  exact ⟨h.1, h.2.trans (by decide)⟩

/-- C8: every fallback sub-command runs with the caller's configuration
copied and only `returnOutput` overridden — to a truthy (capturing)
value — while all other fields are preserved (the override is an
`Object.assign({}, config, ...)` onto a fresh object, so the caller's
`config` value itself is untouched; the embedding's configurations are
values, mirroring that the copy never aliases the original). -/
theorem c8_subconfig_frame :
    ∀ (cmd : String) (args : List String) (config : IRunConfig)
      (oracle : String → IRunConfig → Except RejectReason String)
      (e : String × IRunConfig),
      e ∈ (expandCmdModel cmd args config oracle).executed →
      ∃ ro : RetOut,
        e.2 = { config with returnOutput := ro }
        ∧ ro.truthy = true
        ∧ e.2.debug = config.debug
        ∧ e.2.dryrun = config.dryrun
        ∧ e.2.sapVersion = config.sapVersion
        ∧ e.2.suppressTbj = config.suppressTbj := by
  intro cmd args config oracle e he
  rw [expandCmdModel_executed] at he
  rcases List.mem_map.mp he with ⟨a, ha, rfl⟩
  refine ⟨(subConfig config a.2).returnOutput, rfl, ?_, rfl, rfl, rfl, rfl⟩
  simp only [subConfig]
  split <;> rfl

/-- C8 witness: the frame property applied to the single sub-command
launched by `"${1:::c}"` with no arguments. -/
theorem c8_subconfig_frame_witness :
    ∃ ro : RetOut,
      (("c", ({ returnOutput := RetOut.bool true } : IRunConfig)) : String × IRunConfig).2
        = { ({} : IRunConfig) with returnOutput := ro }
      ∧ ro.truthy = true
      ∧ (("c", ({ returnOutput := RetOut.bool true } : IRunConfig)) : String × IRunConfig).2.debug
          = ({} : IRunConfig).debug
      ∧ (("c", ({ returnOutput := RetOut.bool true } : IRunConfig)) : String × IRunConfig).2.dryrun
          = ({} : IRunConfig).dryrun
      ∧ (("c", ({ returnOutput := RetOut.bool true } : IRunConfig)) : String × IRunConfig).2.sapVersion
          = ({} : IRunConfig).sapVersion
      ∧ (("c", ({ returnOutput := RetOut.bool true } : IRunConfig)) : String × IRunConfig).2.suppressTbj
          = ({} : IRunConfig).suppressTbj :=
  c8_subconfig_frame "$\x7b1:::c\x7d" [] {} (fun _ _ => Except.ok "")
    ("c", { returnOutput := RetOut.bool true }) (by decide)

theorem stripRetOutSuffix_strips (s : String) (ds : List Char) (hne : ds ≠ [])
    (hds : ∀ c ∈ ds, Char.isDigit c) :
    stripRetOutSuffix (s ++ " --gkcu-returnOutput=" ++ String.mk ds)
      = (s, RetOut.num (natOfDigits ds)) := by
  have hm : gkcuMarker.reverse = '=' :: gkcuMarker.reverse.tail := by decide
  have h1 : (s ++ " --gkcu-returnOutput=" ++ String.mk ds).data.reverse
      = ds.reverse ++ ('=' :: (gkcuMarker.reverse.tail ++ s.data.reverse)) := by
    have hdata : (s ++ " --gkcu-returnOutput=" ++ String.mk ds).data
        = (s.data ++ gkcuMarker) ++ ds := rfl
    rw [hdata]
    conv_lhs => rw [List.reverse_append, List.reverse_append, hm, List.cons_append]
  have hsplit : spanP Char.isDigit ((s ++ " --gkcu-returnOutput=" ++ String.mk ds).data.reverse)
      = (ds.reverse, '=' :: (gkcuMarker.reverse.tail ++ s.data.reverse)) := by
    rw [h1]
    apply spanP_exact
    · intro c hc
      exact hds c (List.mem_reverse.mp hc)
    · intro h
      rw [List.head_cons]
      decide
  have hback : ('=' :: (gkcuMarker.reverse.tail ++ s.data.reverse)).reverse
      = s.data ++ gkcuMarker := by
    have h2 : ('=' :: (gkcuMarker.reverse.tail ++ s.data.reverse))
        = (s.data ++ gkcuMarker).reverse := by
      conv_rhs => rw [List.reverse_append, hm, List.cons_append]
    rw [h2, List.reverse_reverse]
  unfold stripRetOutSuffix splitTrailingDigits
  rw [hsplit]
  simp only [hback, List.reverse_reverse]
  rw [if_pos]
  · have hlen : (s.data ++ gkcuMarker).length - gkcuMarker.length = s.data.length := by
      simp [List.length_append]
    rw [hlen, List.take_left' rfl]
  · constructor
    · simpa using hne
    · rw [List.isSuffixOf_iff_suffix]
      exact List.suffix_append s.data gkcuMarker

/-- C4 counterexample: a command fallback ending in the bare
` --gkcu-returnOutput` token (no `=<digits>`) is *not* stripped — the
source only strips `/ --gkcu-returnOutput=(\d+)$/` — so the claim that
both trailing forms are removed before the sub-command is run is false:
the launched sub-command string still carries the bare token. -/
theorem c4_counterexample :
    ((expandCmdModel "$\x7b1:::c --gkcu-returnOutput\x7d" [] {}
        (fun _ _ => Except.ok "out")).executed.map Prod.fst
      = ["c --gkcu-returnOutput"])
    ∧ (["c --gkcu-returnOutput"] : List String) ≠ ["c"] := by
  refine ⟨by decide, by decide⟩

/-- C4 amended: only the ` --gkcu-returnOutput=<digits>` form (digits
required, at the very end, separated by exactly one space) is stripped
from a command fallback before the sub-command is run, and the
referencing placeholder then receives only the last N trimmed lines of
the shared cleaned output; a bare trailing ` --gkcu-returnOutput` is
left in the sub-command string (capture-all stays the default). -/
theorem c4_returnOutput_suffix :
    (∀ (s : String) (ds : List Char), ds ≠ [] → (∀ c ∈ ds, Char.isDigit c) →
        stripRetOutSuffix (s ++ " --gkcu-returnOutput=" ++ String.mk ds)
          = (s, RetOut.num (natOfDigits ds)))
    ∧ stripRetOutSuffix "c --gkcu-returnOutput" = ("c --gkcu-returnOutput", .bool true)
    ∧ (∀ (s : String) oracle,
        oracle "c" ({ returnOutput := RetOut.inf } : IRunConfig) = .ok s →
        (expandCmdModel "$\x7b3:::c --gkcu-returnOutput=2\x7d" [] {} oracle).executed
          = [("c", { returnOutput := RetOut.inf })]
        ∧ (expandCmdModel "$\x7b3:::c --gkcu-returnOutput=2\x7d" [] {} oracle).expanded
          = .ok (getLastLines (cleanUpOutput s) (some 2))) := by
  refine ⟨stripRetOutSuffix_strips, by decide, ?_⟩
  intro s oracle h
  have hphase : phase1 (scan ("$\x7b3:::c --gkcu-returnOutput=2\x7d").data) [] []
      = ([Seg.sub "c" (.num 2) ""], [("c", [⟨.num 2, ""⟩])]) := by decide
  have hsub : subConfig {} [⟨RetOut.num 2, ""⟩]
      = ({ returnOutput := RetOut.inf } : IRunConfig) := by decide
  unfold expandCmdModel
  rw [hphase]
  simp only [subOutputs, List.map_cons, List.map_nil, hsub, h, Except.map, firstError]
  constructor
  · trivial
  · simp only [assemble, subReplacement, lookupOutput, if_pos rfl,
      transformValue_empty_g1, String.append_empty]
    simp [transformValue]

/-- C4 witness: the strip lemma at `"three --gkcu-returnOutput=33"` and
the behavior clause with a concrete three-line oracle output. -/
theorem c4_returnOutput_suffix_witness :
    stripRetOutSuffix ("three" ++ " --gkcu-returnOutput=" ++ String.mk ['3', '3'])
      = ("three", RetOut.num 33)
    ∧ (expandCmdModel "$\x7b3:::c --gkcu-returnOutput=2\x7d" [] {}
        (fun _ _ => Except.ok "l1\nl2\nl3")).expanded = .ok "l2\nl3" := by
  have h1 := c4_returnOutput_suffix.1 "three" ['3', '3'] (by decide) (by decide)
  have h2 := (c4_returnOutput_suffix.2.2 "l1\nl2\nl3"
    (fun _ _ => Except.ok "l1\nl2\nl3") rfl).2
  exact ⟨h1.trans (by decide), h2.trans (by decide)⟩

section PromiseLemmas

theorem processEvents_some_split {n : Nat} {d : String} {s : Settled} :
    ∀ {evs : List (Nat × StageEvent)}, processEvents n d evs = some s →
      ∃ pre ev post, evs = pre ++ ev :: post
        ∧ (∀ x ∈ pre, settleOf n d x = none)
        ∧ settleOf n d ev = some s := by
  intro evs
  induction evs with
  | nil => intro h; exact absurd h (by simp [processEvents])
  | cons ev rest ih =>
    intro h
    simp only [processEvents] at h
    match hse : settleOf n d ev with
    | some s2 =>
      rw [hse] at h
      simp only [Option.some.injEq] at h
      subst h
      exact ⟨[], ev, rest, rfl, by simp, hse⟩
    | none =>
      rw [hse] at h
      rcases ih h with ⟨pre, e2, post, heq, hpre, he⟩
      refine ⟨ev :: pre, e2, post, by rw [heq]; rfl, ?_, he⟩
      intro x hx
      rcases List.mem_cons.mp hx with h1 | h1
      · rw [h1, hse]
      · exact hpre x h1

theorem processEvents_skip {n : Nat} {d : String} :
    ∀ (pre rest : List (Nat × StageEvent)), (∀ x ∈ pre, settleOf n d x = none) →
      processEvents n d (pre ++ rest) = processEvents n d rest := by
  intro pre
  induction pre with
  | nil => intro rest _; rfl
  | cons ev pre2 ih =>
    intro rest hpre
    rw [List.cons_append]
    simp only [processEvents, hpre ev (by simp)]
    exact ih rest (fun x hx => hpre x (by simp [hx]))

theorem settleOf_resolved {n : Nat} {d : String} {ev : Nat × StageEvent} {v : String}
    (h : settleOf n d ev = some (.resolved v)) :
    ev = (n - 1, StageEvent.exited 0) ∧ v = d := by
  rcases ev with ⟨i, e⟩
  cases e with
  | errored e2 => exact absurd h (by simp [settleOf])
  | killed sig => exact absurd h (by simp [settleOf])
  | exited c =>
    simp only [settleOf] at h
    split at h
    · exact absurd h (by simp)
    · rename_i hc
      split at h
      · rename_i hi
        simp only [Option.some.injEq, Settled.resolved.injEq] at h
        have hc0 : c = 0 := by omega
        exact ⟨by rw [hi, hc0], h.symm⟩
      · exact absurd h (by simp)

theorem spawnModel_ok {rawCmd : String} {config : IRunConfig}
    {events : List (Nat × StageEvent)} {producedOutput : String} {specs : List CmdSpec}
    (h : parseRawCmd rawCmd (config.sapVersion.getD 1) config.dryrun = .ok specs) :
    spawnAsPromisedModel rawCmd config events producedOutput
      = match
          processEvents specs.length
            (getReturnData config.returnOutput
              (if config.returnOutput.truthy then producedOutput else ""))
            events
        with
        | none => { stages := specs, settled := none, actions := [] }
        | some s =>
          { stages := specs, settled := some s,
            actions := [cleanupAction config, .settle s] } := by
  unfold spawnAsPromisedModel
  rw [h]

theorem spawnModel_err {rawCmd : String} {config : IRunConfig}
    {events : List (Nat × StageEvent)} {producedOutput : String} {e : String}
    (h : parseRawCmd rawCmd (config.sapVersion.getD 1) config.dryrun = .error e) :
    spawnAsPromisedModel rawCmd config events producedOutput
      = { stages := [], settled := some (.rejected (.parseErr e)),
          actions := [cleanupAction config, .settle (.rejected (.parseErr e))] } := by
  unfold spawnAsPromisedModel
  rw [h]

end PromiseLemmas

/-- C3: settlement behaviour of `spawnAsPromised` (for commands the
parser accepts).  The promise resolves only off the last stage exiting
with code `0` (every earlier event in the trace is non-settling), and
the resolved value is `""` when `returnOutput` is `false`, the full
captured output when it is `true`, and the last N trimmed lines when it
is a number N ≥ 1; the first settling event being a non-zero exit, a
signal kill, or a spawn error makes the promise reject with that exit
code, signal name, or error respectively. -/
theorem c3_settlement :
    ∀ (rawCmd : String) (config : IRunConfig) (events : List (Nat × StageEvent))
      (producedOutput : String) (specs : List CmdSpec),
      parseRawCmd rawCmd (config.sapVersion.getD 1) config.dryrun = .ok specs →
      ((∀ v, (spawnAsPromisedModel rawCmd config events producedOutput).settled
            = some (.resolved v) →
          (∃ pre post, events = pre ++ ((specs.length - 1, StageEvent.exited 0) :: post)
              ∧ ∀ x ∈ pre, settleOf specs.length v x = none)
          ∧ (config.returnOutput = .bool false → v = "")
          ∧ (config.returnOutput = .bool true → v = producedOutput)
          ∧ (∀ n, config.returnOutput = .num n → 1 ≤ n →
              v = getLastLines (jsTrim producedOutput) (some n)))
       ∧ (∀ pre ev post, events = pre ++ ev :: post →
            (∀ x ∈ pre, settleOf specs.length
                (getReturnData config.returnOutput
                  (if config.returnOutput.truthy then producedOutput else "")) x = none) →
            (∀ i c, ev = (i, StageEvent.exited c) → c ≠ 0 →
                (spawnAsPromisedModel rawCmd config events producedOutput).settled
                  = some (.rejected (.exitCode c)))
            ∧ (∀ i sig, ev = (i, StageEvent.killed sig) →
                (spawnAsPromisedModel rawCmd config events producedOutput).settled
                  = some (.rejected (.signal sig)))
            ∧ (∀ i err, ev = (i, StageEvent.errored err) →
                (spawnAsPromisedModel rawCmd config events producedOutput).settled
                  = some (.rejected (.spawnErr err))))) := by
  intro rawCmd config events producedOutput specs hp
  have hmodel := @spawnModel_ok rawCmd config events producedOutput specs hp
  constructor
  · intro v hv
    rw [hmodel] at hv
    match hpe :
        processEvents specs.length
          (getReturnData config.returnOutput
            (if config.returnOutput.truthy then producedOutput else ""))
          events with
    | none => rw [hpe] at hv; exact absurd hv (by simp)
    | some s =>
      rw [hpe] at hv
      simp only [Option.some.injEq] at hv
      subst hv
      rcases processEvents_some_split hpe with ⟨pre, ev, post, heq, hpre, he⟩
      rcases settleOf_resolved he with ⟨hev, hvd⟩
      subst hev
      refine ⟨⟨pre, post, heq, by rw [hvd]; exact hpre⟩, ?_, ?_, ?_⟩
      · intro hro; rw [hvd, hro]; rfl
      · intro hro; rw [hvd, hro]; rfl
      · intro n hro hn
        rw [hvd, hro]
        have htr : (RetOut.num n).truthy = true := by
          simp only [RetOut.truthy, decide_eq_true_eq]
          omega
        rw [htr]
        rfl
  · intro pre ev post heq hpre
    have hred : ∀ s2 : Settled,
        settleOf specs.length
          (getReturnData config.returnOutput
            (if config.returnOutput.truthy then producedOutput else "")) ev = some s2 →
        (spawnAsPromisedModel rawCmd config events producedOutput).settled = some s2 := by
      intro s2 hs2
      rw [hmodel, heq, processEvents_skip pre (ev :: post) hpre]
      simp only [processEvents, hs2]
    refine ⟨?_, ?_, ?_⟩
    · intro i c hev hc
      apply hred
      rw [hev]
      simp only [settleOf, if_pos hc]
    · intro i sig hev
      apply hred
      rw [hev]
      rfl
    · intro i err hev
      apply hred
      rw [hev]
      rfl

/-- C3 witness: a one-stage command resolving off `exit 0`, and a
rejection with exit code 2. -/
theorem c3_settlement_witness :
    (∃ pre post,
        [((0 : Nat), StageEvent.exited 0)]
          = pre ++ ((([(⟨"a", []⟩ : CmdSpec)].length - 1, StageEvent.exited 0)) :: post)
        ∧ ∀ x ∈ pre, settleOf [(⟨"a", []⟩ : CmdSpec)].length "" x = none)
    ∧ (spawnAsPromisedModel "b" {} [((0 : Nat), StageEvent.exited 2)] "").settled
        = some (.rejected (.exitCode 2)) := by
  have h1 := c3_settlement "a" {} [(0, StageEvent.exited 0)] "" [⟨"a", []⟩] (by decide)
  have h2 := c3_settlement "b" {} [(0, StageEvent.exited 2)] "" [⟨"b", []⟩] (by decide)
  refine ⟨((h1.1 "" (by decide)).1), ?_⟩
  exact (h2.2 [] (0, StageEvent.exited 2) [] rfl (by simp)).1 0 2 rfl (by decide)

/-- C7: whenever a `spawnAsPromised` promise settles — resolving or
rejecting — the cleanup bundle (exit-hook cancellation, terminate-batch
-job un-suppression, conditional terminal-style writes) runs exactly
once, immediately before the settlement; the two fixed control
sequences (reset style, show cursor) are written to stdout iff the
output was not fully redirected away from the terminal, i.e.
`returnOutput` falsy or numeric. -/
theorem c7_cleanup :
    ∀ (rawCmd : String) (config : IRunConfig) (events : List (Nat × StageEvent))
      (producedOutput : String) (s : Settled),
      (spawnAsPromisedModel rawCmd config events producedOutput).settled = some s →
      (spawnAsPromisedModel rawCmd config events producedOutput).actions
        = [SapAction.cleanup true config.suppressTbj (cleanUpWrites config.returnOutput),
           SapAction.settle s]
      ∧ (cleanUpWrites config.returnOutput = [escResetBold, escShowCursor]
          ↔ (config.returnOutput.truthy = false ∨ config.returnOutput.isNumeric = true)) := by
  intro rawCmd config events producedOutput s hs
  constructor
  · match hp : parseRawCmd rawCmd (config.sapVersion.getD 1) config.dryrun with
    | .error e =>
      rw [spawnModel_err hp] at hs ⊢
      simp only [Option.some.injEq] at hs
      rw [← hs]
      rfl
    | .ok specs =>
      rw [spawnModel_ok hp] at hs ⊢
      match hpe :
          processEvents specs.length
            (getReturnData config.returnOutput
              (if config.returnOutput.truthy then producedOutput else ""))
            events with
      | none => rw [hpe] at hs; simp at hs
      | some s2 =>
        rw [hpe] at hs
        simp only [Option.some.injEq] at hs
        rw [← hs]
        rfl
  · rcases hro : config.returnOutput with b | n | _
    · cases b <;> decide
    · simp [cleanUpWrites, RetOut.truthy, RetOut.isNumeric]
    · simp [cleanUpWrites, RetOut.truthy, RetOut.isNumeric, escResetBold, escShowCursor]

/-- C7 witness: the cleanup/settle action trace of a concrete resolved
run, with the style sequences written (output not redirected). -/
theorem c7_cleanup_witness :
    (spawnAsPromisedModel "a" {} [((0 : Nat), StageEvent.exited 0)] "").actions
      = [SapAction.cleanup true false (cleanUpWrites (.bool false)),
         SapAction.settle (.resolved "")]
    ∧ (cleanUpWrites (RetOut.bool false) = [escResetBold, escShowCursor]
        ↔ ((RetOut.bool false).truthy = false ∨ (RetOut.bool false).isNumeric = true)) :=
  c7_cleanup "a" {} [(0, StageEvent.exited 0)] "" (.resolved "") (by decide)

/-- C10: for every command and every config whose `sapVersion` is
neither 1 nor 2, `spawnAsPromised` rejects with the
`Unknown 'sapVersion'` error thrown inside the promise executor — no
stage is ever spawned — and the cleanup bundle still runs exactly once
before the promise settles. -/
theorem c10_unknown_sapversion :
    ∀ (rawCmd : String) (config : IRunConfig) (events : List (Nat × StageEvent))
      (producedOutput : String) (v : Int),
      config.sapVersion = some v → v ≠ 1 → v ≠ 2 →
      (spawnAsPromisedModel rawCmd config events producedOutput).settled
        = some (.rejected (.parseErr
            ("Unknown " ++ sq ++ "sapVersion" ++ sq ++ " (" ++ toString v ++ ").")))
      ∧ (spawnAsPromisedModel rawCmd config events producedOutput).stages = []
      ∧ (spawnAsPromisedModel rawCmd config events producedOutput).actions
        = [SapAction.cleanup true config.suppressTbj (cleanUpWrites config.returnOutput),
           SapAction.settle (.rejected (.parseErr
             ("Unknown " ++ sq ++ "sapVersion" ++ sq ++ " (" ++ toString v ++ ").")))] := by
  intro rawCmd config events producedOutput v hv h1 h2
  have hp : parseRawCmd rawCmd (config.sapVersion.getD 1) config.dryrun
      = .error ("Unknown " ++ sq ++ "sapVersion" ++ sq ++ " (" ++ toString v ++ ").") := by
    rw [hv]
    unfold parseRawCmd
    rw [if_neg (by simpa using h1), if_neg (by simpa using h2)]
    rfl
  unfold spawnAsPromisedModel
  rw [hp]
  exact ⟨rfl, rfl, rfl⟩

/-- C10 witness: `sapVersion = 3`. -/
theorem c10_unknown_sapversion_witness :
    (spawnAsPromisedModel "x" { sapVersion := some 3 } [] "").settled
      = some (.rejected (.parseErr
          ("Unknown " ++ sq ++ "sapVersion" ++ sq ++ " (" ++ toString (3 : Int) ++ ").")))
    ∧ (spawnAsPromisedModel "x" { sapVersion := some 3 } [] "").stages = [] := by
  have h := c10_unknown_sapversion "x" { sapVersion := some 3 } [] "" 3 rfl
    (by decide) (by decide)
  exact ⟨h.1, h.2.1⟩

section DryrunLemmas

/-- Clean recursive description of the `insertAfter` loop (for
`newItem ≠ afterItem`, which holds for both dryrun rewrites): after
each `afterItem` the `newItem` is inserted — behind the `(` token
immediately following it when there is one, since `insertAt` skips over
a parenthesis sitting exactly at the insertion point. -/
def insertAfterR (newItem afterItem : String) : List String → List String
  | [] => []
  | x :: rest =>
    if x = afterItem then
      match rest with
      | [] => [x, newItem]
      | y :: rest2 =>
        if y = "(" then x :: y :: newItem :: insertAfterR newItem afterItem rest2
        else x :: newItem :: insertAfterR newItem afterItem (y :: rest2)
    else x :: insertAfterR newItem afterItem rest

theorem insertAfterR_cons_ne {x a : String} (n : String) (rest : List String)
    (h : x ≠ a) : insertAfterR n a (x :: rest) = x :: insertAfterR n a rest := by
  cases rest <;> simp [insertAfterR, h]

theorem splice_take {α : Type} (A : List α) (x : α) (B : List α) :
    (A ++ x :: B).take (A.length + 1) = A ++ [x] := by
  induction A with
  | nil => rfl
  | cons a A2 ih => simp [List.take, ih]

theorem splice_drop {α : Type} (A : List α) (x : α) (B : List α) :
    (A ++ x :: B).drop (A.length + 1) = B := by
  induction A with
  | nil => rfl
  | cons a A2 ih => simpa using ih

theorem take_succ_get (items : List String) (i : Nat) (hi : i < items.length) :
    items.take (i + 1) = items.take i ++ [items[i]] := by
  rw [List.take_add]
  congr 1
  rw [List.drop_eq_getElem_cons hi]
  rfl

theorem splice_take_at {α : Type} (A : List α) (x : α) (B : List α) (k : Nat)
    (hA : A.length = k) : (A ++ x :: B).take k = A := by
  subst hA
  simpa using List.take_left A (x :: B)

theorem splice_drop_at {α : Type} (A : List α) (x : α) (B : List α) (k : Nat)
    (hA : A.length = k) : (A ++ x :: B).drop k = x :: B := by
  subst hA
  simpa using List.drop_left A (x :: B)

theorem splice_take_at1 {α : Type} (A : List α) (x : α) (B : List α) (k : Nat)
    (hA : A.length = k) : (A ++ x :: B).take (k + 1) = A ++ [x] := by
  subst hA
  exact splice_take A x B

theorem splice_drop_at1 {α : Type} (A : List α) (x : α) (B : List α) (k : Nat)
    (hA : A.length = k) : (A ++ x :: B).drop (k + 1) = B := by
  subst hA
  exact splice_drop A x B

theorem insertAfterLoop_eq (newItem afterItem : String) (hne : newItem ≠ afterItem) :
    ∀ (fuel : Nat) (items : List String) (i : Nat), items.length - i < fuel →
      insertAfterLoop fuel items newItem afterItem i
        = items.take i ++ insertAfterR newItem afterItem (items.drop i) := by
  intro fuel
  induction fuel with
  | zero => intro items i h; omega
  | succ f ih =>
    intro items i h
    simp only [insertAfterLoop]
    by_cases hi : i < items.length
    · rw [dif_pos hi]
      have hdropi : items.drop i = items[i] :: items.drop (i + 1) :=
        List.drop_eq_getElem_cons hi
      by_cases hmatch : items.get ⟨i, hi⟩ = afterItem
      · rw [if_pos hmatch]
        have hm2 : items[i] = afterItem := hmatch
        by_cases hparen : items.get? (i + 1) = some "("
        · -- a `(` sits at the insertion point: insert at i + 2
          rcases List.get?_eq_some.mp hparen with ⟨hlt, hget⟩
          have hg2 : items[i + 1] = "(" := hget
          have hdropi1 : items.drop (i + 1) = "(" :: items.drop (i + 2) := by
            rw [List.drop_eq_getElem_cons hlt, hg2]
          have hA : (items.take (i + 2)).length = i + 2 := by
            rw [List.length_take]; omega
          have hins : insertAt items newItem (i + 1)
              = items.take (i + 2) ++ newItem :: items.drop (i + 2) := by
            unfold insertAt
            rw [if_pos hparen]
          have htake2 : items.take (i + 2) = items.take i ++ [items[i], "("] := by
            rw [take_succ_get items (i + 1) hlt, take_succ_get items i hi, hg2,
              List.append_assoc]
            rfl
          rw [hins, ih _ (i + 2) (by
              simp only [List.length_append, List.length_cons, List.length_take,
                List.length_drop]
              omega),
            splice_take_at _ _ _ _ hA, splice_drop_at _ _ _ _ hA,
            insertAfterR_cons_ne newItem _ hne, hdropi, hdropi1, htake2, hm2]
          simp [insertAfterR]
        · -- no parenthesis at the insertion point: insert at i + 1
          have hins : insertAt items newItem (i + 1)
              = items.take (i + 1) ++ newItem :: items.drop (i + 1) := by
            unfold insertAt
            rw [if_neg hparen]
          have hA : (items.take (i + 1)).length = i + 1 := by
            rw [List.length_take]; omega
          rw [hins, ih _ (i + 2) (by
              simp only [List.length_append, List.length_cons, List.length_take,
                List.length_drop]
              omega),
            splice_take_at1 _ _ _ _ hA, splice_drop_at1 _ _ _ _ hA, hdropi, hm2,
            take_succ_get items i hi, hm2]
          cases hdrop : items.drop (i + 1) with
          | nil => simp [insertAfterR]
          | cons y rest2 =>
            have hy : y ≠ "(" := by
              intro hcon
              apply hparen
              have hlt : i + 1 < items.length := by
                by_contra hge
                rw [List.drop_eq_nil_iff.mpr (by omega)] at hdrop
                exact absurd hdrop (by simp)
              rw [List.get?_eq_some]
              refine ⟨hlt, ?_⟩
              have hd := List.drop_eq_getElem_cons hlt
              rw [hdrop] at hd
              have hy2 := (List.cons_eq_cons.mp hd).1
              rw [List.get_eq_getElem, ← hy2, hcon]
            simp only [insertAfterR, if_pos rfl, if_neg hy]
            simp
      · rw [if_neg hmatch]
        rw [List.get_eq_getElem] at hmatch
        have hm2 : ¬ (items[i] = afterItem) := fun hcon => hmatch (by simpa using hcon)
        rw [ih items (i + 1) (by omega), hdropi,
          insertAfterR_cons_ne _ _ hm2,
          take_succ_get items i hi, List.append_assoc]
        rfl
    · rw [dif_neg hi]
      rw [List.drop_eq_nil_of_le (by omega), List.take_of_length_le (by omega)]
      simp [insertAfterR]

/-- `insertAfter` in closed form. -/
theorem insertAfter_eq (items : List String) (n a : String) (hne : n ≠ a) :
    insertAfter items n a = insertAfterR n a items := by
  unfold insertAfter
  rw [insertAfterLoop_eq n a hne (items.length + 1) items 0 (by omega)]
  rfl

/-- `insertAt _ _ 0` in closed form (the `echo` prefix goes behind a
leading `(` token). -/
theorem insertAt_zero (tokens : List String) (x : String) :
    insertAt tokens x 0
      = match tokens with
        | [] => [x]
        | t :: ts => if t = "(" then t :: x :: ts else x :: t :: ts := by
  match tokens with
  | [] => rfl
  | t :: ts =>
    unfold insertAt
    by_cases ht : t = "(" <;> simp [ht]

end DryrunLemmas

/-- C9 counterexample: the claim's rewriting — `echo` at position 0 and
immediately after every top-level `&&`/`||` — fails when the token
after `&&` is a `(`: for the stage `foo && (bar)` the code inserts the
`echo` behind the `(` token (`insertAt` skips a parenthesis at the
insertion point), producing `["foo","&&","(","echo","bar)"]` as the
arguments of the rewritten stage instead of the claimed
`["foo","&&","echo","(","bar)"]`. -/
theorem c9_counterexample :
    parseRawCmd "foo && (bar)" 1 true
      = .ok [{ executable := "echo", args := ["foo", "&&", "(", "echo", "bar)"] }]
    ∧ (["echo", "foo", "&&", "(", "echo", "bar)"] : List String)
        ≠ ["echo", "foo", "&&", "echo", "(", "bar)"] :=
  ⟨by decide, by decide⟩

/-- C9 amended: in tokenized (sapVersion 1) dryrun parsing every
stage's token list is rewritten by inserting `echo` at position 0
(behind a leading `(` token, if any) and immediately after every
`&&` and `||` token (behind the `(` token immediately following it, if
any) — the closed forms `insertAt_zero` / `insertAfterR`; in
particular `run("echo foo && echo bar", {dryrun:true})` spawns the
single rewritten stage with executable `echo` and arguments
`["echo","foo","&&","echo","echo","bar"]` instead of executing the
original command. -/
theorem c9_dryrun_rewrite :
    (∀ (oracle : String → IRunConfig → Except RejectReason String)
       (events : List (Nat × StageEvent)) (producedOutput : String),
        (runModel "echo foo && echo bar" [] { dryrun := true } oracle events
            producedOutput).stages
          = [{ executable := "echo", args := ["echo", "foo", "&&", "echo", "echo", "bar"] }])
    ∧ (∀ tokens : List String,
        transformForDryrun tokens
          = insertAfterR "echo" "||" (insertAfterR "echo" "&&" (insertAt tokens "echo" 0))) := by
  constructor
  · intro oracle events producedOutput
    have hexp : (expandCmdModel "echo foo && echo bar" [] { dryrun := true }
        oracle).expanded = .ok "echo foo && echo bar" := rfl
    unfold runModel
    rw [hexp]
    have hp : parseRawCmd "echo foo && echo bar"
        (({ dryrun := true } : IRunConfig).sapVersion.getD 1)
        ({ dryrun := true } : IRunConfig).dryrun
        = .ok [{ executable := "echo", args := ["echo", "foo", "&&", "echo", "echo", "bar"] }] := by
      decide
    show (spawnAsPromisedModel "echo foo && echo bar" { dryrun := true } events
      producedOutput).stages = _
    rw [spawnModel_ok hp]
    split <;> rfl
  · intro tokens
    unfold transformForDryrun
    rw [insertAfter_eq _ _ _ (by decide), insertAfter_eq _ _ _ (by decide)]

end CliUtils
